import Mathlib

/-!
Verification development for the solution evaluator of the oa-reminder
repository (src/services/evaluator.py).

Python strings are embedded as `List Char` (restricted to the ASCII
whitespace conventions actually exercised by the evaluator: whitespace is
space, tab, CR, LF; line boundaries are LF, CRLF and lone CR).  Pure
functions of the source become Lean functions; subprocess invocations are
oracles (`RunOutcome`); Python exceptions become `Except` values; the
side effects relevant to the claims (temp-dir creation/removal, build and
per-case process invocations) are recorded in an explicit action trace.
-/

/-- Whitespace predicate used by Python's str.strip / str.rstrip
(ASCII fragment: space, tab, LF, CR). -/
def isWS (c : Char) : Bool :=
  c = ' ' || c = '\t' || c = '\n' || c = '\r'

/-- Embedding of Python str.lstrip(): drop leading whitespace. -/
def lstrip (s : List Char) : List Char :=
  s.dropWhile isWS

/-- Embedding of Python str.rstrip(): drop trailing whitespace. -/
def rstrip (s : List Char) : List Char :=
  (s.reverse.dropWhile isWS).reverse

/-- Embedding of Python str.strip(): drop whitespace at both ends. -/
def strip (s : List Char) : List Char :=
  rstrip (lstrip s)

/-- Prepend a character to the first line of a line list (auxiliary for
line splitting). -/
def consHead (c : Char) : List (List Char) → List (List Char)
  | [] => [[c]]
  | l :: ls => (c :: l) :: ls

/-- Canonicalize line terminators the way Python str.splitlines sees
them: CRLF and a lone CR both count as a single boundary, i.e. they are
rewritten to a single LF. -/
def nlCanon : List Char → List Char
  | [] => []
  | ['\r'] => ['\n']
  | '\r' :: '\n' :: t => '\n' :: nlCanon t
  | '\r' :: c :: t => '\n' :: nlCanon (c :: t)
  | c :: t => c :: nlCanon t

/-- Split on LF, with Python's terminator semantics: a trailing LF does
not produce a final empty line. -/
def splitNL : List Char → List (List Char)
  | [] => []
  | c :: t => if c = '\n' then [] :: splitNL t else consHead c (splitNL t)

/-- Embedding of Python str.splitlines() (on the modeled boundary set
LF, CRLF, CR). -/
def splitlines (s : List Char) : List (List Char) :=
  splitNL (nlCanon s)

/-- Join lines with a single LF separator (Python "\n".join(lines)). -/
def joinNL : List (List Char) → List Char
  | [] => []
  | [l] => l
  | l :: ls => l ++ '\n' :: joinNL ls

/-- Embedding of evaluator.py `_normalize`:
lines = [ln.rstrip() for ln in s.strip().splitlines()];
return "\n".join(lines).strip(). -/
def _normalize (s : List Char) : List Char :=
  strip (joinNL ((splitlines (strip s)).map rstrip))

/-- Modelled from the spec's words for the Output Normalizer contract
(section 4.1): split the input on line boundaries, right-trim each line,
re-join with a single newline separator, then trim leading/trailing
whitespace from the whole result.  (Unlike the code, the input is not
pre-stripped.)  Used only to compare against `_normalize`. -/
def specNormalize (s : List Char) : List Char :=
  strip (joinNL ((splitlines s).map rstrip))

/-! Basic lemmas about stripping and joining. -/

theorem consHead_ne_nil (c : Char) (ls : List (List Char)) : consHead c ls ≠ [] := by
  cases ls <;> simp [consHead]

theorem splitNL_eq_nil_iff (v : List Char) : splitNL v = [] ↔ v = [] := by
  cases v with
  | nil => simp [splitNL]
  | cons c t =>
    simp only [splitNL]
    constructor
    · intro h
      by_cases hc : c = '\n'
      · simp [hc] at h
      · simp only [hc, if_false] at h
        exact absurd h (consHead_ne_nil c (splitNL t))
    · intro h
      exact absurd h (by simp)

theorem dropWhile_dropWhile {α : Type} (p : α → Bool) (l : List α) :
    (l.dropWhile p).dropWhile p = l.dropWhile p := by
  induction l with
  | nil => rfl
  | cons a t ih =>
    by_cases h : p a
    · simp [List.dropWhile_cons, h, ih]
    · simp [List.dropWhile_cons, h]

theorem rstrip_nil : rstrip [] = [] := rfl

theorem rstrip_eq_nil_iff (l : List Char) : rstrip l = [] ↔ ∀ c ∈ l, isWS c := by
  simp [rstrip, List.dropWhile_eq_nil_iff]

theorem rstrip_append_ws {c : Char} (hc : isWS c) (u : List Char) :
    rstrip (u ++ [c]) = rstrip u := by
  simp [rstrip, List.reverse_append, List.dropWhile_cons, hc]

theorem rstrip_append_allws {w : List Char} (hw : ∀ c ∈ w, isWS c) (u : List Char) :
    rstrip (u ++ w) = rstrip u := by
  induction w generalizing u with
  | nil => simp
  | cons c w ih =>
    have : u ++ c :: w = (u ++ [c]) ++ w := by simp
    rw [this, ih (fun d hd => hw d (List.mem_cons_of_mem c hd)),
      rstrip_append_ws (hw c (List.mem_cons_self c w))]

theorem rstrip_cons (c : Char) (l : List Char) :
    rstrip (c :: l) = if rstrip l = [] then rstrip [c] else c :: rstrip l := by
  have h1 : (c :: l).reverse = l.reverse ++ [c] := by simp
  by_cases h : rstrip l = []
  · rw [if_pos h]
    have h2 : l.reverse.dropWhile isWS = [] := by
      have := congrArg List.reverse h
      simpa [rstrip] using this
    show ((c :: l).reverse.dropWhile isWS).reverse = rstrip [c]
    rw [h1, List.dropWhile_append, h2]
    simp [rstrip]
  · rw [if_neg h]
    have h2 : ¬ (l.reverse.dropWhile isWS).isEmpty = true := by
      intro hc
      apply h
      rw [List.isEmpty_iff] at hc
      simp [rstrip, hc]
    show ((c :: l).reverse.dropWhile isWS).reverse = c :: rstrip l
    rw [h1, List.dropWhile_append, if_neg h2]
    simp [rstrip]

theorem rstrip_cons_of_ne {l : List Char} (h : rstrip l ≠ []) (c : Char) :
    rstrip (c :: l) = c :: rstrip l := by
  simp [rstrip_cons, h]

theorem rstrip_cons_ws_of_nil {l : List Char} (h : rstrip l = []) {c : Char} (hc : isWS c) :
    rstrip (c :: l) = [] := by
  rw [rstrip_eq_nil_iff] at h ⊢
  intro d hd
  rcases List.mem_cons.mp hd with h1 | h1
  · exact h1 ▸ hc
  · exact h d h1

theorem rstrip_idem (l : List Char) : rstrip (rstrip l) = rstrip l := by
  simp [rstrip, List.reverse_reverse, dropWhile_dropWhile]

theorem lstrip_cons_ws {c : Char} (hc : isWS c) (u : List Char) :
    lstrip (c :: u) = lstrip u := by
  simp [lstrip, List.dropWhile_cons, hc]

theorem strip_cons_ws {c : Char} (hc : isWS c) (u : List Char) :
    strip (c :: u) = strip u := by
  simp [strip, lstrip_cons_ws hc]

theorem strip_append_ws {c : Char} (hc : isWS c) (u : List Char) :
    strip (u ++ [c]) = strip u := by
  simp only [strip, lstrip, List.dropWhile_append]
  by_cases h : (u.dropWhile isWS).isEmpty = true
  · simp [h, List.dropWhile_cons, hc, rstrip_nil,
      (List.isEmpty_iff).mp h]
  · simp only [h, if_false]
    exact rstrip_append_ws hc _

theorem strip_append_allws {w : List Char} (hw : ∀ c ∈ w, isWS c) (u : List Char) :
    strip (u ++ w) = strip u := by
  induction w generalizing u with
  | nil => simp
  | cons c w ih =>
    have : u ++ c :: w = (u ++ [c]) ++ w := by simp
    rw [this, ih (fun d hd => hw d (List.mem_cons_of_mem c hd)),
      strip_append_ws (hw c (List.mem_cons_self c w))]

theorem joinNL_cons {ls : List (List Char)} (h : ls ≠ []) (l : List Char) :
    joinNL (l :: ls) = l ++ '\n' :: joinNL ls := by
  cases ls with
  | nil => exact absurd rfl h
  | cons a as => rfl

theorem joinNL_cons_head (c : Char) (l : List Char) (M : List (List Char)) :
    joinNL ((c :: l) :: M) = c :: joinNL (l :: M) := by
  cases M with
  | nil => rfl
  | cons a as => rfl

theorem joinNL_concat {ls : List (List Char)} (h : ls ≠ []) (x : List Char) :
    joinNL (ls ++ [x]) = joinNL ls ++ '\n' :: x := by
  induction ls with
  | nil => exact absurd rfl h
  | cons a as ih =>
    cases as with
    | nil => rfl
    | cons b bs =>
      have h1 : joinNL ((a :: b :: bs) ++ [x]) = a ++ '\n' :: joinNL ((b :: bs) ++ [x]) := by
        rw [List.cons_append]
        exact joinNL_cons (by simp) a
      rw [h1, ih (by simp), joinNL_cons (by simp) a, List.append_assoc]
      simp

theorem strip_joinNL_concat_nil (ls : List (List Char)) :
    strip (joinNL (ls ++ [[]])) = strip (joinNL ls) := by
  cases h : ls with
  | nil => rfl
  | cons a as =>
    rw [← h, joinNL_concat (by simp [h])]
    have : joinNL ls ++ '\n' :: [] = joinNL ls ++ ['\n'] := rfl
    rw [this, strip_append_ws (by decide)]

/-! Invariance of the normalization pipeline (after newline
canonicalization) under leading/trailing whitespace. -/

/-- The normalization pipeline applied to an already newline-canonical
text: split on LF, rstrip each line, join with LF, strip the result. -/
def normNL (v : List Char) : List Char :=
  strip (joinNL ((splitNL v).map rstrip))

theorem specNormalize_eq_normNL (s : List Char) :
    specNormalize s = normNL (nlCanon s) := rfl

theorem splitNL_cons_nl (t : List Char) : splitNL ('\n' :: t) = [] :: splitNL t := by
  simp [splitNL]

theorem splitNL_cons_other {c : Char} (h : c ≠ '\n') (t : List Char) :
    splitNL (c :: t) = consHead c (splitNL t) := by
  simp [splitNL, h]

theorem rstrip_singleton_ws {c : Char} (hc : isWS c) : rstrip [c] = [] := by
  rw [rstrip_eq_nil_iff]
  intro d hd
  simp at hd
  exact hd ▸ hc

theorem normNL_cons_ws {c : Char} (hc : isWS c) (v : List Char) :
    normNL (c :: v) = normNL v := by
  by_cases hcn : c = '\n'
  · subst hcn
    rw [normNL, splitNL_cons_nl, List.map_cons, rstrip_nil]
    cases hM : (splitNL v).map rstrip with
    | nil =>
      have hv : v = [] := by
        rw [← splitNL_eq_nil_iff]
        exact List.map_eq_nil_iff.mp hM
      subst hv
      rfl
    | cons m ms =>
      rw [joinNL_cons (by simp) ([] : List Char), List.nil_append,
        strip_cons_ws (by decide)]
      simp only [normNL]
      rw [hM]
  · rw [normNL, splitNL_cons_other hcn]
    cases hS : splitNL v with
    | nil =>
      have hv : v = [] := (splitNL_eq_nil_iff v).mp hS
      subst hv
      show strip (joinNL [rstrip [c]]) = normNL []
      rw [rstrip_singleton_ws hc]
      rfl
    | cons h hs =>
      show strip (joinNL (((c :: h) :: hs).map rstrip)) = normNL v
      rw [normNL, hS, List.map_cons, List.map_cons]
      by_cases hrh : rstrip h = []
      · rw [rstrip_cons_ws_of_nil hrh hc, hrh]
      · rw [rstrip_cons_of_ne hrh c, joinNL_cons_head, strip_cons_ws hc]

theorem mapRstrip_splitNL_append_ws {c : Char} (hc : isWS c) (v : List Char) :
    (splitNL (v ++ [c])).map rstrip = (splitNL v).map rstrip ∨
    (splitNL (v ++ [c])).map rstrip = (splitNL v).map rstrip ++ [[]] := by
  induction v with
  | nil =>
    right
    by_cases hcn : c = '\n'
    · subst hcn
      simp [splitNL, consHead, rstrip_nil]
    · simp [splitNL, consHead, hcn, rstrip_singleton_ws hc]
  | cons a v ih =>
    by_cases ha : a = '\n'
    · subst ha
      rw [List.cons_append, splitNL_cons_nl, splitNL_cons_nl,
        List.map_cons, List.map_cons]
      rcases ih with h | h
      · left; rw [h]
      · right; rw [h]; rfl
    · rw [List.cons_append, splitNL_cons_other ha, splitNL_cons_other ha]
      cases hv : splitNL v with
      | nil =>
        have hv0 : v = [] := (splitNL_eq_nil_iff v).mp hv
        subst hv0
        left
        simp only [List.nil_append]
        by_cases hcn : c = '\n'
        · subst hcn
          have h3 : splitNL ['\n'] = [[]] := by simp [splitNL]
          rw [h3]
          simp [consHead]
        · have h3 : splitNL [c] = [[c]] := by simp [splitNL, consHead, hcn]
          rw [h3]
          simp only [consHead, List.map_cons, List.map_nil]
          rw [show ([a, c] : List Char) = [a] ++ [c] from rfl, rstrip_append_ws hc]
      | cons h hs =>
        have hne : splitNL (v ++ [c]) ≠ [] := by
          simp [splitNL_eq_nil_iff]
        cases hv' : splitNL (v ++ [c]) with
        | nil => exact absurd hv' hne
        | cons h' hs' =>
          rw [hv, hv'] at ih
          simp only [List.map_cons] at ih
          rcases ih with heq | heq
          · left
            have hh : rstrip h' = rstrip h := (List.cons.injEq _ _ _ _ ▸ heq).1
            have ht : hs'.map rstrip = hs.map rstrip := (List.cons.injEq _ _ _ _ ▸ heq).2
            simp only [consHead, List.map_cons]
            rw [rstrip_cons a h', rstrip_cons a h, hh, ht]
          · right
            have hh : rstrip h' = rstrip h := by
              have := congrArg (fun l => l.head?) heq
              simpa using this
            have ht : hs'.map rstrip = hs.map rstrip ++ [[]] := by
              have := congrArg (fun l => l.tail) heq
              simpa using this
            simp only [consHead, List.map_cons]
            rw [rstrip_cons a h', rstrip_cons a h, hh, ht]
            rfl

theorem normNL_append_ws {c : Char} (hc : isWS c) (v : List Char) :
    normNL (v ++ [c]) = normNL v := by
  rcases mapRstrip_splitNL_append_ws hc v with h | h
  · rw [normNL, h]; rfl
  · rw [normNL, h, strip_joinNL_concat_nil]; rfl

theorem normNL_append_allws {w : List Char} (hw : ∀ c ∈ w, isWS c) (v : List Char) :
    normNL (v ++ w) = normNL v := by
  induction w generalizing v with
  | nil => simp
  | cons c w ih =>
    have : v ++ c :: w = (v ++ [c]) ++ w := by simp
    rw [this, ih (fun d hd => hw d (List.mem_cons_of_mem c hd)),
      normNL_append_ws (hw c (List.mem_cons_self c w))]

theorem normNL_allws_prefix {w : List Char} (hw : ∀ c ∈ w, isWS c) (v : List Char) :
    normNL (w ++ v) = normNL v := by
  induction w with
  | nil => rfl
  | cons c w ih =>
    rw [List.cons_append, normNL_cons_ws (hw c (List.mem_cons_self c w)),
      ih (fun d hd => hw d (List.mem_cons_of_mem c hd))]

/-! Lemmas about the newline canonicalization `nlCanon`. -/

/-- Remove one leading LF if present (used to describe how `nlCanon`
treats text following a CR). -/
def dropNL : List Char → List Char
  | [] => []
  | c :: u => if c = '\n' then u else c :: u

/-- Does the text end with a CR (so that a following LF would merge)? -/
def endsCR (s : List Char) : Bool :=
  decide (s.getLast? = some '\r')

theorem nlCanon_cons_other {c : Char} (h : c ≠ '\r') (t : List Char) :
    nlCanon (c :: t) = c :: nlCanon t := by
  simp [nlCanon, h]

theorem nlCanon_cr_cons {c : Char} (h : c ≠ '\n') (t : List Char) :
    nlCanon ('\r' :: c :: t) = '\n' :: nlCanon (c :: t) := by
  simp [nlCanon, h]

theorem nlCanon_cr (t : List Char) :
    nlCanon ('\r' :: t) = '\n' :: nlCanon (dropNL t) := by
  cases t with
  | nil => rfl
  | cons d u =>
    by_cases hd : d = '\n'
    · subst hd
      simp [nlCanon, dropNL]
    · rw [nlCanon_cr_cons hd]
      simp [dropNL, hd]

theorem nlCanon_no_cr (s : List Char) : '\r' ∉ nlCanon s := by
  induction s using nlCanon.induct with
  | case1 => simp [nlCanon]
  | case2 => decide
  | case3 t ih =>
    rw [show nlCanon ('\r' :: '\n' :: t) = '\n' :: nlCanon t from rfl]
    intro hm
    rcases List.mem_cons.mp hm with h | h
    · exact absurd h (by decide)
    · exact ih h
  | case4 c t hcn ih =>
    rw [nlCanon_cr_cons (fun h => hcn h) t]
    intro hm
    rcases List.mem_cons.mp hm with h | h
    · exact absurd h (by decide)
    · exact ih h
  | case5 c t h1 h2 h3 ih =>
    have hc : c ≠ '\r' := by
      intro hr
      cases t with
      | nil => exact h1 hr rfl
      | cons d u => exact h3 d u hr rfl
    rw [nlCanon_cons_other hc]
    intro hm
    rcases List.mem_cons.mp hm with h | h
    · exact hc h.symm
    · exact ih h

theorem nlCanon_id {s : List Char} (h : '\r' ∉ s) : nlCanon s = s := by
  induction s with
  | nil => rfl
  | cons c t ih =>
    have hc : c ≠ '\r' := by
      intro he
      exact h (he ▸ List.mem_cons_self c t)
    rw [nlCanon_cons_other hc, ih (fun hm => h (List.mem_cons_of_mem c hm))]

theorem endsCR_nil : endsCR [] = false := rfl

theorem endsCR_cons_cons (a b : Char) (t : List Char) :
    endsCR (a :: b :: t) = endsCR (b :: t) := by
  simp [endsCR, List.getLast?_cons_cons]

theorem endsCR_nl_cons (t : List Char) : endsCR ('\n' :: t) = endsCR t := by
  cases t with
  | nil => rfl
  | cons d u => exact endsCR_cons_cons '\n' d u

theorem endsCR_singleton_of_ne {c : Char} (h : c ≠ '\r') : endsCR [c] = false := by
  simp [endsCR, h]

/-- How `nlCanon` distributes over append: the only interaction is a
trailing CR of the first part merging with a leading LF of the second. -/
theorem nlCanon_append (s : List Char) : ∀ w : List Char,
    nlCanon (s ++ w) =
      nlCanon s ++ (if endsCR s then nlCanon (dropNL w) else nlCanon w) := by
  induction s using nlCanon.induct with
  | case1 =>
    intro w
    simp [endsCR, nlCanon]
  | case2 =>
    intro w
    rw [show (['\r'] ++ w : List Char) = '\r' :: w from rfl, nlCanon_cr,
      show endsCR ['\r'] = true from rfl, if_pos rfl]
    rfl
  | case3 t ih =>
    intro w
    rw [show ('\r' :: '\n' :: t) ++ w = '\r' :: '\n' :: (t ++ w) from rfl,
      show nlCanon ('\r' :: '\n' :: (t ++ w)) = '\n' :: nlCanon (t ++ w) from rfl,
      ih w,
      show nlCanon ('\r' :: '\n' :: t) = '\n' :: nlCanon t from rfl,
      endsCR_cons_cons, endsCR_nl_cons]
    rfl
  | case4 c t hcn ih =>
    intro w
    have hc : c ≠ '\n' := fun h => hcn h
    rw [show ('\r' :: c :: t) ++ w = '\r' :: c :: (t ++ w) from rfl,
      nlCanon_cr_cons hc, show (c :: (t ++ w)) = (c :: t) ++ w from rfl,
      ih w, nlCanon_cr_cons hc, endsCR_cons_cons]
    rfl
  | case5 c t h1 h2 h3 ih =>
    intro w
    have hc : c ≠ '\r' := by
      intro hr
      cases t with
      | nil => exact h1 hr rfl
      | cons d u => exact h3 d u hr rfl
    rw [show (c :: t) ++ w = c :: (t ++ w) from rfl, nlCanon_cons_other hc,
      ih w, nlCanon_cons_other hc]
    cases t with
    | nil =>
      rw [endsCR_nil, endsCR_singleton_of_ne hc]
      simp
    | cons d u =>
      rw [endsCR_cons_cons]
      rfl

theorem nlCanon_singleton (c : Char) : nlCanon [c] = ['\n'] ∨ nlCanon [c] = [c] := by
  by_cases h : c = '\r'
  · left
    subst h
    rfl
  · right
    rw [nlCanon_cons_other h]
    rfl

theorem dropNL_singleton (c : Char) : dropNL [c] = [] ∨ dropNL [c] = [c] := by
  by_cases h : c = '\n' <;> simp [dropNL, h]

/-! Invariance of `specNormalize` under whitespace at either end, and
the equivalence with the code's `_normalize`. -/

theorem specNormalize_append_ws {c : Char} (hc : isWS c) (s : List Char) :
    specNormalize (s ++ [c]) = specNormalize s := by
  rw [specNormalize_eq_normNL, specNormalize_eq_normNL, nlCanon_append s [c]]
  by_cases he : endsCR s
  · rw [if_pos he]
    apply normNL_append_allws
    rcases dropNL_singleton c with h | h <;> rw [h]
    · intro d hd
      simp [nlCanon] at hd
    · rcases nlCanon_singleton c with h2 | h2 <;> rw [h2]
      · intro d hd
        simp at hd
        exact hd ▸ (by decide)
      · intro d hd
        simp at hd
        exact hd ▸ hc
  · rw [if_neg he]
    apply normNL_append_allws
    rcases nlCanon_singleton c with h2 | h2 <;> rw [h2]
    · intro d hd
      simp at hd
      exact hd ▸ (by decide)
    · intro d hd
      simp at hd
      exact hd ▸ hc

theorem specNormalize_append_allws {w : List Char} (hw : ∀ c ∈ w, isWS c)
    (s : List Char) : specNormalize (s ++ w) = specNormalize s := by
  induction w generalizing s with
  | nil => simp
  | cons c w ih =>
    have : s ++ c :: w = (s ++ [c]) ++ w := by simp
    rw [this, ih (fun d hd => hw d (List.mem_cons_of_mem c hd)),
      specNormalize_append_ws (hw c (List.mem_cons_self c w))]

theorem specNormalize_cons_ws {c : Char} (hc : isWS c) (s : List Char) :
    specNormalize (c :: s) = specNormalize s := by
  by_cases hcr : c = '\r'
  · subst hcr
    rw [specNormalize_eq_normNL, specNormalize_eq_normNL, nlCanon_cr,
      normNL_cons_ws (by decide)]
    cases s with
    | nil => rfl
    | cons d u =>
      by_cases hd : d = '\n'
      · subst hd
        rw [show dropNL ('\n' :: u) = u from by simp [dropNL],
          nlCanon_cons_other (by decide) u, normNL_cons_ws (by decide)]
      · rw [show dropNL (d :: u) = d :: u from by simp [dropNL, hd]]
  · rw [specNormalize_eq_normNL, specNormalize_eq_normNL,
      nlCanon_cons_other hcr, normNL_cons_ws hc]

theorem specNormalize_lstrip (s : List Char) :
    specNormalize (lstrip s) = specNormalize s := by
  induction s with
  | nil => rfl
  | cons c t ih =>
    by_cases hc : isWS c
    · rw [lstrip_cons_ws hc, ih, specNormalize_cons_ws hc]
    · rw [show lstrip (c :: t) = c :: t from List.dropWhile_cons_of_neg (by simpa using hc)]

theorem exists_rstrip_decomp (s : List Char) :
    ∃ w, s = rstrip s ++ w ∧ ∀ c ∈ w, isWS c := by
  refine ⟨(s.reverse.takeWhile isWS).reverse, ?_, ?_⟩
  · have h := List.takeWhile_append_dropWhile isWS s.reverse
    calc s = s.reverse.reverse := by rw [List.reverse_reverse]
    _ = (s.reverse.takeWhile isWS ++ s.reverse.dropWhile isWS).reverse := by rw [h]
    _ = rstrip s ++ (s.reverse.takeWhile isWS).reverse := by
        rw [List.reverse_append]; rfl
  · intro c hcm
    rw [List.mem_reverse] at hcm
    exact List.mem_takeWhile_imp hcm

theorem specNormalize_rstrip (s : List Char) :
    specNormalize (rstrip s) = specNormalize s := by
  obtain ⟨w, hw1, hw2⟩ := exists_rstrip_decomp s
  have h := specNormalize_append_allws hw2 (rstrip s)
  rw [← hw1] at h
  exact h.symm

theorem specNormalize_strip (s : List Char) :
    specNormalize (strip s) = specNormalize s := by
  rw [strip, specNormalize_rstrip, specNormalize_lstrip]

theorem _normalize_eq_specNormalize (s : List Char) :
    _normalize s = specNormalize s :=
  specNormalize_strip s

/-! Round-trip between `splitNL` and `joinNL`, idempotence and
whitespace tolerance of normalization. -/

theorem mem_rstrip {c : Char} {l : List Char} (h : c ∈ rstrip l) : c ∈ l := by
  rw [rstrip, List.mem_reverse] at h
  exact List.mem_reverse.mp (List.Sublist.mem h (List.dropWhile_sublist isWS))

theorem mem_joinNL {c : Char} {L : List (List Char)} (h : c ∈ joinNL L) :
    c = '\n' ∨ ∃ l ∈ L, c ∈ l := by
  induction L with
  | nil => simp [joinNL] at h
  | cons l ls ih =>
    cases ls with
    | nil =>
      right
      exact ⟨l, List.mem_cons_self l [], h⟩
    | cons l' ls' =>
      rw [joinNL_cons (by simp) l] at h
      rcases List.mem_append.mp h with h1 | h1
      · right
        exact ⟨l, List.mem_cons_self l _, h1⟩
      · rcases List.mem_cons.mp h1 with h2 | h2
        · left
          exact h2
        · rcases ih h2 with h3 | ⟨m, hm, hcm⟩
          · left
            exact h3
          · right
            exact ⟨m, List.mem_cons_of_mem l hm, hcm⟩

theorem splitNL_line_no_nl {v : List Char} : ∀ l ∈ splitNL v, '\n' ∉ l := by
  induction v with
  | nil => simp [splitNL]
  | cons c t ih =>
    by_cases hc : c = '\n'
    · subst hc
      rw [splitNL_cons_nl]
      intro l hl
      rcases List.mem_cons.mp hl with rfl | hl
      · simp
      · exact ih l hl
    · rw [splitNL_cons_other hc]
      cases hS : splitNL t with
      | nil =>
        intro l hl
        rcases List.mem_cons.mp hl with rfl | hl
        · intro hm
          rcases List.mem_cons.mp hm with h2 | h2
          · exact hc h2.symm
          · simp at h2
        · simp at hl
      | cons h hs =>
        intro l hl
        rcases List.mem_cons.mp hl with rfl | hl
        · intro hm
          rcases List.mem_cons.mp hm with h2 | h2
          · exact hc h2.symm
          · exact ih h (hS ▸ List.mem_cons_self h hs) h2
        · exact ih l (hS ▸ List.mem_cons_of_mem h hl)

theorem splitNL_line_mem {v : List Char} : ∀ l ∈ splitNL v, ∀ c ∈ l, c ∈ v := by
  induction v with
  | nil => simp [splitNL]
  | cons a t ih =>
    by_cases ha : a = '\n'
    · subst ha
      rw [splitNL_cons_nl]
      intro l hl c hc
      rcases List.mem_cons.mp hl with rfl | hl
      · simp at hc
      · exact List.mem_cons_of_mem _ (ih l hl c hc)
    · rw [splitNL_cons_other ha]
      cases hS : splitNL t with
      | nil =>
        intro l hl c hc
        rcases List.mem_cons.mp hl with rfl | hl
        · simp at hc
          exact hc ▸ List.mem_cons_self a t
        · simp at hl
      | cons h hs =>
        intro l hl c hc
        rcases List.mem_cons.mp hl with rfl | hl
        · rcases List.mem_cons.mp hc with rfl | hc2
          · exact List.mem_cons_self c t
          · exact List.mem_cons_of_mem _
              (ih h (hS ▸ List.mem_cons_self h hs) c hc2)
        · exact List.mem_cons_of_mem _
            (ih l (hS ▸ List.mem_cons_of_mem h hl) c hc)

theorem splitNL_self {l : List Char} (h : '\n' ∉ l) (hne : l ≠ []) :
    splitNL l = [l] := by
  induction l with
  | nil => exact absurd rfl hne
  | cons a t ih =>
    have ha : a ≠ '\n' := fun he => h (he ▸ List.mem_cons_self a t)
    rw [splitNL_cons_other ha]
    cases ht : t with
    | nil => rfl
    | cons b u =>
      rw [← ht, ih (fun hm => h (List.mem_cons_of_mem a hm)) (by simp [ht])]
      rfl

theorem splitNL_join_nl_free {l : List Char} (h : '\n' ∉ l) (rest : List Char) :
    splitNL (l ++ '\n' :: rest) = l :: splitNL rest := by
  induction l with
  | nil =>
    rw [List.nil_append, splitNL_cons_nl]
  | cons a t ih =>
    have ha : a ≠ '\n' := fun he => h (he ▸ List.mem_cons_self a t)
    rw [List.cons_append, splitNL_cons_other ha,
      ih (fun hm => h (List.mem_cons_of_mem a hm))]
    rfl

theorem splitNL_joinNL (L : List (List Char)) (h : ∀ l ∈ L, '\n' ∉ l) :
    splitNL (joinNL L) = L ∨
    (L.getLast? = some [] ∧ splitNL (joinNL L) = L.dropLast) := by
  induction L with
  | nil =>
    left
    rfl
  | cons l ls ih =>
    cases ls with
    | nil =>
      by_cases hl : l = []
      · right
        subst hl
        exact ⟨rfl, rfl⟩
      · left
        rw [show joinNL [l] = l from rfl, splitNL_self (h l (by simp)) hl]
    | cons l' ls' =>
      rw [joinNL_cons (by simp) l, splitNL_join_nl_free (h l (by simp))]
      rcases ih (fun x hx => h x (List.mem_cons_of_mem l hx)) with h2 | ⟨h2a, h2b⟩
      · left
        rw [h2]
      · right
        refine ⟨?_, ?_⟩
        · rw [List.getLast?_cons_cons]
          exact h2a
        · rw [h2b]
          rfl

theorem map_rstrip_fixed {L : List (List Char)} (h : ∀ l ∈ L, rstrip l = l) :
    L.map rstrip = L := by
  calc L.map rstrip = L.map id := List.map_congr_left h
  _ = L := List.map_id L

/-- The normalization pipeline is the identity modulo the outer strip on
a join of lines that are already LF-free, CR-free and right-stripped. -/
theorem specNormalize_joinNL_fixed (L : List (List Char))
    (h : ∀ l ∈ L, '\n' ∉ l ∧ '\r' ∉ l ∧ rstrip l = l) :
    specNormalize (joinNL L) = strip (joinNL L) := by
  have hnr : '\r' ∉ joinNL L := by
    intro hm
    rcases mem_joinNL hm with h1 | ⟨l, hl, hcl⟩
    · exact absurd h1 (by decide)
    · exact (h l hl).2.1 hcl
  have hnl : ∀ l ∈ L, '\n' ∉ l := fun l hl => (h l hl).1
  have hfix : ∀ l ∈ L, rstrip l = l := fun l hl => (h l hl).2.2
  show strip (joinNL ((splitNL (nlCanon (joinNL L))).map rstrip)) = strip (joinNL L)
  rw [nlCanon_id hnr]
  rcases splitNL_joinNL L hnl with h2 | ⟨h2a, h2b⟩
  · rw [h2, map_rstrip_fixed hfix]
  · rcases List.eq_nil_or_concat L with he | ⟨L2, a, hL⟩
    · rw [he] at h2a
      simp at h2a
    · rw [List.concat_eq_append] at hL
      subst hL
      have ha : a = [] := by
        rw [List.getLast?_concat] at h2a
        exact Option.some.inj h2a
      subst ha
      have hdl : (L2 ++ [[]]).dropLast = L2 := by simp
      rw [h2b, hdl,
        map_rstrip_fixed (fun l hl => hfix l (List.mem_append_left _ hl)),
        strip_joinNL_concat_nil]

theorem splitlines_line_facts (x : List Char) :
    ∀ l ∈ splitlines x, '\n' ∉ l ∧ '\r' ∉ l := by
  intro l hl
  constructor
  · exact splitNL_line_no_nl l hl
  · intro hm
    exact nlCanon_no_cr x (splitNL_line_mem l hl '\r' hm)

theorem specNormalize_idem (x : List Char) :
    specNormalize (specNormalize x) = specNormalize x := by
  have hL : ∀ l ∈ (splitlines x).map rstrip, '\n' ∉ l ∧ '\r' ∉ l ∧ rstrip l = l := by
    intro l hl
    obtain ⟨l0, hl0, rfl⟩ := List.mem_map.mp hl
    obtain ⟨hn, hr⟩ := splitlines_line_facts x l0 hl0
    exact ⟨fun hm => hn (mem_rstrip hm), fun hm => hr (mem_rstrip hm), rstrip_idem l0⟩
  have h1 : specNormalize x = strip (joinNL ((splitlines x).map rstrip)) := rfl
  rw [h1, specNormalize_strip, specNormalize_joinNL_fixed _ hL]

/-- Appending space-only suffixes to a list of LF/CR-free lines does
not change the right-stripped lines and keeps them LF/CR-free. -/
theorem zipWith_space_facts :
    ∀ lines ss : List (List Char),
    ss.length = lines.length →
    (∀ l ∈ lines, '\n' ∉ l ∧ '\r' ∉ l) →
    (∀ s ∈ ss, ∀ c ∈ s, c = ' ') →
    (List.zipWith (fun l e => l ++ e) lines ss).map rstrip = lines.map rstrip ∧
    (∀ l ∈ List.zipWith (fun l e => l ++ e) lines ss, '\n' ∉ l ∧ '\r' ∉ l) := by
  intro lines
  induction lines with
  | nil =>
    intro ss _ _ _
    simp
  | cons l ls ih =>
    intro ss hlen hlines hss
    cases ss with
    | nil => simp at hlen
    | cons s ss2 =>
      simp only [List.zipWith_cons_cons, List.map_cons]
      have hlen2 : ss2.length = ls.length := by simpa using hlen
      obtain ⟨ha, hb⟩ := ih ss2 hlen2
        (fun a haa => hlines a (List.mem_cons_of_mem l haa))
        (fun a haa => hss a (List.mem_cons_of_mem s haa))
      have hsp : ∀ c ∈ s, c = ' ' := hss s (List.mem_cons_self s ss2)
      refine ⟨?_, ?_⟩
      · rw [ha, rstrip_append_allws (fun c hcm => by rw [hsp c hcm]; decide) l]
      · intro a haa
        rcases List.mem_cons.mp haa with rfl | haa
        · obtain ⟨hn, hr⟩ := hlines l (List.mem_cons_self l ls)
          constructor
          · intro hm
            rcases List.mem_append.mp hm with hm | hm
            · exact hn hm
            · exact absurd (hsp _ hm) (by decide)
          · intro hm
            rcases List.mem_append.mp hm with hm | hm
            · exact hr hm
            · exact absurd (hsp _ hm) (by decide)
        · exact hb a haa

/-- Whitespace tolerance of the normalization pipeline: appending
space-only suffixes to every line of the input and an all-whitespace
tail (e.g. trailing blank lines) does not change the normal form. -/
theorem specNormalize_tolerance (x : List Char) (ss : List (List Char))
    (w : List Char)
    (hlen : ss.length = (splitlines x).length)
    (hss : ∀ s ∈ ss, ∀ c ∈ s, c = ' ')
    (hw : ∀ c ∈ w, isWS c) :
    specNormalize
        (joinNL (List.zipWith (fun l e => l ++ e) (splitlines x) ss) ++ w)
      = specNormalize x := by
  rw [specNormalize_append_allws hw]
  obtain ⟨hmapeq, hZlines⟩ :=
    zipWith_space_facts (splitlines x) ss hlen (splitlines_line_facts x) hss
  have hZnr : '\r' ∉ joinNL (List.zipWith (fun l e => l ++ e) (splitlines x) ss) := by
    intro hm
    rcases mem_joinNL hm with h1 | ⟨l, hl, hcl⟩
    · exact absurd h1 (by decide)
    · exact (hZlines l hl).2 hcl
  show strip (joinNL ((splitNL (nlCanon _)).map rstrip)) = specNormalize x
  rw [nlCanon_id hZnr]
  rcases splitNL_joinNL _ (fun l hl => (hZlines l hl).1) with h2 | ⟨h2a, h2b⟩
  · rw [h2, hmapeq]
    rfl
  · rcases List.eq_nil_or_concat
        (List.zipWith (fun l e => l ++ e) (splitlines x) ss) with he | ⟨Z2, a, hZ⟩
    · rw [he] at h2a
      simp at h2a
    · rw [List.concat_eq_append] at hZ
      rw [hZ] at h2a
      have ha : a = [] := by
        rw [List.getLast?_concat] at h2a
        exact Option.some.inj h2a
      subst ha
      rw [h2b, hZ]
      have hdl : (Z2 ++ [[]]).dropLast = Z2 := by simp
      rw [hdl]
      have hmap2 : (Z2 ++ [[]]).map rstrip = Z2.map rstrip ++ [[]] := by
        simp [rstrip_nil]
      rw [hZ, hmap2] at hmapeq
      show strip (joinNL (Z2.map rstrip)) = strip (joinNL ((splitlines x).map rstrip))
      rw [← hmapeq, strip_joinNL_concat_nil]

/-! Embedding of the evaluator's data model and control flow
(evaluator.py lines 218-409). -/

/-- Outcome of invoking the candidate process on one sample (oracle for
subprocess.run): it completed with an exit code and captured streams, it
raised subprocess.TimeoutExpired, or it raised any other exception
(e.g. FileNotFoundError for a missing interpreter binary). -/
inductive RunOutcome where
  | completed (rc : Int) (out err : List Char)
  | timedOut
  | raised (msg : List Char)
deriving DecidableEq

/-- The side effects of one evaluation request that the claims talk
about: tempfile.mkdtemp, shutil.rmtree, a compiler invocation, and the
per-sample process invocations (by 1-indexed case number). -/
inductive EvalAction where
  | mkTmpdir
  | rmTmpdir
  | build
  | runCase (idx : Nat)
deriving DecidableEq

/-- One entry of the per-case `results` list (the dicts built in the
sample loop).  `caseIdx` models the dict key "case" ("case" is a Lean
keyword).  `exit_code` is `none` exactly in the timeout dict, which
carries `timeout := true` in place of an exit code; a completed run has
`timeout := false` modeling the absent "timeout" key. -/
structure CaseResult where
  caseIdx : Nat
  ok : Bool
  exit_code : Option Int
  timeout : Bool
  input : List Char
  expected : List Char
  got : List Char
  stderr : List Char
deriving DecidableEq

/-- Per-language evaluation outcome: the compile-failure dict, the ran
dict with passed/total/results, or the unreachable not-implemented
branch of evaluate_solution's inner dispatch. -/
inductive LangOutcome where
  | buildFailed (compile_error : List Char)
  | ran (passed : Nat) (total : Nat) (results : List CaseResult)
  | notImplemented
deriving DecidableEq

/-- The result dict of `evaluate_solution`, restricted to the fields the
claims mention; a field is `none` when the corresponding key is absent
from the Python dict.  The problem/language/platform/note/message
bookkeeping keys are carried through unchanged and not modeled.
Field order: ok, error, compile_error, summary, score, passed, total,
results. -/
structure EvalResult where
  ok : Bool
  error : Option (List Char)
  compile_error : Option (List Char)
  summary : Option (List Char)
  score : Option Nat
  passed : Option Nat
  total : Option Nat
  results : Option (List CaseResult)
deriving DecidableEq

def isRaised : RunOutcome → Bool
  | .raised _ => true
  | _ => false

/-- The per-sample loop shared verbatim by the three per-language
evaluators (evaluator.py lines 227-247, 256-276, 291-311): for each
sample, invoke the process; a completed run is compared after
normalization (`ok = (rc == 0) and (normalize(got) == normalize(exp))`)
and recorded with truncated input/expected/got/stderr; a
subprocess.TimeoutExpired is recorded as a timeout dict; any other
exception propagates, because only TimeoutExpired is caught.  `runs k`
is the outcome of invoking the process on case number k (1-indexed);
the passed counter is accumulated alongside. -/
def evalLoopFrom (runs : Nat → RunOutcome) :
    Nat → List (List Char × List Char) → Except (List Char) (List CaseResult × Nat)
  | _, [] => .ok ([], 0)
  | idx, (inp, expd) :: rest =>
    match runs idx with
    | .completed rc out err =>
      match evalLoopFrom runs (idx + 1) rest with
      | .error m => .error m
      | .ok (rs, p) =>
        .ok (⟨idx, decide (rc = 0 ∧ _normalize out = _normalize expd), some rc,
              false, inp.take 1000, expd.take 1000, out.take 1000,
              err.take 500⟩ :: rs,
             (if decide (rc = 0 ∧ _normalize out = _normalize expd) then 1 else 0) + p)
    | .timedOut =>
      match evalLoopFrom runs (idx + 1) rest with
      | .error m => .error m
      | .ok (rs, p) =>
        .ok (⟨idx, false, none, true, inp.take 1000, expd.take 1000, [],
              "Time Limit Exceeded".toList⟩ :: rs, p)
    | .raised msg => .error msg

/-- Which case invocations actually happen in the loop: every case up to
and including the first one whose invocation raises a non-timeout
exception. -/
def loopTrace (runs : Nat → RunOutcome) :
    Nat → List (List Char × List Char) → List EvalAction
  | _, [] => []
  | idx, _ :: rest =>
    EvalAction.runCase idx ::
      (if isRaised (runs idx) then [] else loopTrace runs (idx + 1) rest)

/-- Embedding of evaluate_cpp_solution (lines 218-249): compile via the
oracle `compileRes` = (returncode, stdout, stderr) of g++; a non-zero
compiler exit short-circuits with compile_error = stderr[:2000] and an
empty results list; otherwise all samples are run.  Writing the source
file and the tmpdir path bookkeeping are not modeled. -/
def evaluate_cpp_solution (compileRes : Int × List Char × List Char)
    (runs : Nat → RunOutcome) (samples : List (List Char × List Char)) :
    Except (List Char) LangOutcome × List EvalAction :=
  if compileRes.1 ≠ 0 then
    (.ok (.buildFailed (compileRes.2.2.take 2000)), [EvalAction.build])
  else
    match evalLoopFrom runs 1 samples with
    | .error m => (.error m, EvalAction.build :: loopTrace runs 1 samples)
    | .ok (rs, p) =>
      (.ok (.ran p samples.length rs), EvalAction.build :: loopTrace runs 1 samples)

/-- Embedding of evaluate_python_solution (lines 252-278): no build
step, just the sample loop on the interpreter invocations. -/
def evaluate_python_solution (runs : Nat → RunOutcome)
    (samples : List (List Char × List Char)) :
    Except (List Char) LangOutcome × List EvalAction :=
  match evalLoopFrom runs 1 samples with
  | .error m => (.error m, loopTrace runs 1 samples)
  | .ok (rs, p) => (.ok (.ran p samples.length rs), loopTrace runs 1 samples)

/-- Embedding of evaluate_java_solution (lines 281-313): identical
structure to the cpp evaluator with javac as the compiler oracle.  The
public-class-name regex detection only chooses file names and the java
invocation argument, which are inside the oracles and not modeled. -/
def evaluate_java_solution (compileRes : Int × List Char × List Char)
    (runs : Nat → RunOutcome) (samples : List (List Char × List Char)) :
    Except (List Char) LangOutcome × List EvalAction :=
  if compileRes.1 ≠ 0 then
    (.ok (.buildFailed (compileRes.2.2.take 2000)), [EvalAction.build])
  else
    match evalLoopFrom runs 1 samples with
    | .error m => (.error m, EvalAction.build :: loopTrace runs 1 samples)
    | .ok (rs, p) =>
      (.ok (.ran p samples.length rs), EvalAction.build :: loopTrace runs 1 samples)

/-- Python round() on the exact rational n / t (for t > 0): round half
to even.  The source computes round(100 * passed / total) on a float;
for passed ≤ total the float quotient is within half an ulp of the exact
rational, and in every tie case the exact rational is a half-integer
with denominator 2, hence exactly representable, so the float round
agrees with this exact rounding. -/
def pyRoundDiv (n t : Nat) : Nat :=
  if 2 * (n % t) < t then n / t
  else if t < 2 * (n % t) then n / t + 1
  else if (n / t) % 2 = 0 then n / t else n / t + 1

/-- score = round(100 * passed / total) if total > 0 else 0
(evaluator.py line 394). -/
def scoreOf (p t : Nat) : Nat :=
  if 0 < t then pyRoundDiv (100 * p) t else 0

/-- The f-string summary of line 395:
Passed p/t tests, a middle dot, Score: s with a percent sign. -/
def summaryOf (p t : Nat) : List Char :=
  "Passed ".toList ++ Nat.toDigits 10 p ++ "/".toList ++ Nat.toDigits 10 t ++
    " tests · Score: ".toList ++ Nat.toDigits 10 (scoreOf p t) ++ "%".toList

/-- ASCII fragment of Python str.lower(). -/
def lowerChar (c : Char) : Char :=
  if 'A' ≤ c ∧ c ≤ 'Z' then Char.ofNat (c.toNat + 32) else c

def pyLower (s : List Char) : List Char :=
  s.map lowerChar

/-- language.lower() plus the synonym table of evaluate_solution
(lines 320-324). -/
def canonLang (l : List Char) : List Char :=
  if l = "c++".toList ∨ l = "cxx".toList ∨ l = "cc".toList then "cpp".toList
  else if l = "py".toList ∨ l = "python3".toList then "python".toList
  else l

/-- Environment oracle for one evaluation request: whether the cached
last-selection contains the problem key, the problem's platform and
titleSlug, the sample list the platform fetcher resolves, the compiler
outcome (returncode, stdout, stderr), and the per-case process
behavior. -/
structure EvalEnv where
  problemFound : Bool
  platform : List Char
  titleSlug : Option (List Char)
  samples : List (List Char × List Char)
  compileRes : Int × List Char × List Char
  runs : Nat → RunOutcome

/-- A result dict with only the ok and error keys. -/
def errResult (e : List Char) : EvalResult :=
  ⟨false, some e, none, none, none, none, none, none⟩

/-- Embedding of evaluate_solution from the samples check onward
(lines 369-409): the no-samples short-circuit (which has no results
key), tempfile.mkdtemp, the per-language dispatch inside
try/except/finally (the finally always removes the tmpdir), the
generic exception handler producing a top-level error dict, and summary
and score assembly when the per-language result has ok true. -/
def evalCore (lang : List Char) (env : EvalEnv) : EvalResult × List EvalAction :=
  if env.samples = [] then
    (⟨false, some ("Samples unavailable".toList), none,
      some (("No sample tests available for ".toList) ++ env.platform),
      none, none, none, none⟩, [])
  else
    let inner :=
      if lang = "cpp".toList then
        evaluate_cpp_solution env.compileRes env.runs env.samples
      else if lang = "python".toList then
        evaluate_python_solution env.runs env.samples
      else if lang = "java".toList then
        evaluate_java_solution env.compileRes env.runs env.samples
      else (.ok .notImplemented, [])
    let res :=
      match inner.1 with
      | .error m =>
        ⟨false, some (("Evaluation error: ".toList) ++ m), none, none, none,
          none, none, none⟩
      | .ok (.buildFailed ce) =>
        ⟨false, none, some ce, some ("Compilation failed".toList), none, none,
          none, some []⟩
      | .ok (.ran p t rs) =>
        ⟨true, none, none, some (summaryOf p t), some (scoreOf p t), some p,
          some t, some rs⟩
      | .ok .notImplemented =>
        ⟨false, some (("Language ".toList) ++ lang ++ (" not implemented".toList)),
          none, none, none, none, none, none⟩
    (res, EvalAction.mkTmpdir :: (inner.2 ++ [EvalAction.rmTmpdir]))

/-- Embedding of evaluate_solution (lines 316-409): language
normalization and validation, cache lookup, platform dispatch with the
LeetCode no-samples special case, then `evalCore`. -/
def evaluate_solution (qkey language : List Char) (env : EvalEnv) :
    EvalResult × List EvalAction :=
  let lang := canonLang (pyLower language)
  if ¬ (lang = "cpp".toList ∨ lang = "python".toList ∨ lang = "java".toList) then
    (errResult (("Language '".toList) ++ lang ++ ("' not supported".toList)), [])
  else if env.problemFound = false then
    (errResult (("No problem found for ".toList) ++ qkey), [])
  else if env.platform = "codeforces".toList then
    evalCore lang env
  else if env.platform = "leetcode".toList then
    match env.titleSlug with
    | none => (errResult ("LeetCode problem missing titleSlug".toList), [])
    | some _ =>
      if env.samples = [] then
        (⟨true, none, none, some ("Code received for LeetCode problem".toList),
          none, none, none, none⟩, [])
      else
        evalCore lang env
  else
    (errResult (("Platform '".toList) ++ env.platform ++ ("' not supported".toList)), [])

/-! Lemmas about the per-sample loop. -/

/-- The case dict recorded for case `idx` as a function of the process
outcome (the two non-raising arms of the loop body). -/
def caseOf (runs : Nat → RunOutcome) (idx : Nat) (inp expd : List Char) :
    CaseResult :=
  match runs idx with
  | .completed rc out err =>
    ⟨idx, decide (rc = 0 ∧ _normalize out = _normalize expd), some rc, false,
      inp.take 1000, expd.take 1000, out.take 1000, err.take 500⟩
  | _ =>
    ⟨idx, false, none, true, inp.take 1000, expd.take 1000, [],
      "Time Limit Exceeded".toList⟩

/-- The results list the loop produces when no invocation raises. -/
def loopResults (runs : Nat → RunOutcome) :
    Nat → List (List Char × List Char) → List CaseResult
  | _, [] => []
  | idx, (inp, expd) :: rest =>
    caseOf runs idx inp expd :: loopResults runs (idx + 1) rest

theorem loopResults_length (runs : Nat → RunOutcome) :
    ∀ (samples : List (List Char × List Char)) (idx : Nat),
    (loopResults runs idx samples).length = samples.length := by
  intro samples
  induction samples with
  | nil => intro idx; rfl
  | cons s rest ih =>
    intro idx
    obtain ⟨inp, expd⟩ := s
    simp [loopResults, ih (idx + 1)]

theorem loopResults_get (runs : Nat → RunOutcome) :
    ∀ (samples : List (List Char × List Char)) (idx k : Nat)
      (hk : k < samples.length)
      (hk2 : k < (loopResults runs idx samples).length),
    (loopResults runs idx samples).get ⟨k, hk2⟩ =
      caseOf runs (idx + k) (samples.get ⟨k, hk⟩).1 (samples.get ⟨k, hk⟩).2 := by
  intro samples
  induction samples with
  | nil =>
    intro idx k hk hk2
    simp at hk
  | cons s rest ih =>
    intro idx k hk hk2
    obtain ⟨inp, expd⟩ := s
    cases k with
    | zero => simp [loopResults]
    | succ k =>
      have hk' : k < rest.length := by simpa using hk
      have hk2' : k < (loopResults runs (idx + 1) rest).length := by
        rw [loopResults_length]
        exact hk'
      show (caseOf runs idx inp expd :: loopResults runs (idx + 1) rest).get
          ⟨k + 1, _⟩ = _
      rw [List.get_cons_succ, ih (idx + 1) k hk' hk2']
      rw [show idx + 1 + k = idx + (k + 1) from by omega]
      rfl

theorem caseOf_caseIdx (runs : Nat → RunOutcome) (idx : Nat)
    (inp expd : List Char) : (caseOf runs idx inp expd).caseIdx = idx := by
  cases h : runs idx <;> simp [caseOf, h]

theorem caseOf_input (runs : Nat → RunOutcome) (idx : Nat)
    (inp expd : List Char) :
    (caseOf runs idx inp expd).input = inp.take 1000 ∧
    (caseOf runs idx inp expd).expected = expd.take 1000 := by
  cases h : runs idx <;> simp [caseOf, h]

theorem caseOf_completed {runs : Nat → RunOutcome} {idx : Nat}
    {rc : Int} {out err : List Char} (h : runs idx = .completed rc out err)
    (inp expd : List Char) :
    caseOf runs idx inp expd =
      ⟨idx, decide (rc = 0 ∧ _normalize out = _normalize expd), some rc, false,
        inp.take 1000, expd.take 1000, out.take 1000, err.take 500⟩ := by
  simp [caseOf, h]

theorem caseOf_timedOut {runs : Nat → RunOutcome} {idx : Nat}
    (h : runs idx = .timedOut) (inp expd : List Char) :
    caseOf runs idx inp expd =
      ⟨idx, false, none, true, inp.take 1000, expd.take 1000, [],
        "Time Limit Exceeded".toList⟩ := by
  simp [caseOf, h]

theorem caseOf_bounds (runs : Nat → RunOutcome) (idx : Nat)
    (inp expd : List Char) :
    (caseOf runs idx inp expd).input.length ≤ 1000 ∧
    (caseOf runs idx inp expd).expected.length ≤ 1000 ∧
    (caseOf runs idx inp expd).got.length ≤ 1000 ∧
    (caseOf runs idx inp expd).stderr.length ≤ 500 := by
  cases h : runs idx with
  | completed rc out err =>
    simp only [caseOf, h]
    exact ⟨List.length_take_le 1000 inp, List.length_take_le 1000 expd,
      List.length_take_le 1000 out, List.length_take_le 500 err⟩
  | timedOut =>
    simp only [caseOf, h]
    refine ⟨List.length_take_le 1000 inp, List.length_take_le 1000 expd, ?_, ?_⟩
    · simp
    · decide
  | raised m =>
    simp only [caseOf, h]
    refine ⟨List.length_take_le 1000 inp, List.length_take_le 1000 expd, ?_, ?_⟩
    · simp
    · decide

/-- When no invocation raises, the loop returns all case dicts in input
order together with the count of the passing ones. -/
theorem evalLoopFrom_eq {runs : Nat → RunOutcome} :
    ∀ (samples : List (List Char × List Char)) (idx : Nat),
    (∀ k, k < samples.length → isRaised (runs (idx + k)) = false) →
    evalLoopFrom runs idx samples =
      .ok (loopResults runs idx samples,
           (loopResults runs idx samples).countP (fun r => r.ok)) := by
  intro samples
  induction samples with
  | nil =>
    intro idx _
    rfl
  | cons s rest ih =>
    intro idx h
    obtain ⟨inp, expd⟩ := s
    have h0 : isRaised (runs idx) = false := by
      have := h 0 (by simp)
      simpa using this
    have hrest : ∀ k, k < rest.length → isRaised (runs (idx + 1 + k)) = false := by
      intro k hk
      rw [show idx + 1 + k = idx + (k + 1) from by omega]
      exact h (k + 1) (by simp; omega)
    have hrec := ih (idx + 1) hrest
    cases hr : runs idx with
    | raised m =>
      rw [hr] at h0
      simp [isRaised] at h0
    | completed rc out err =>
      simp only [evalLoopFrom, hr, hrec, loopResults, caseOf_completed hr,
        List.countP_cons]
      simp
      omega
    | timedOut =>
      simp only [evalLoopFrom, hr, hrec, loopResults, caseOf_timedOut hr,
        List.countP_cons]
      simp

/-- Inversion: whenever the loop returns ok, the results are exactly
`loopResults` and the passed counter counts the passing dicts. -/
theorem evalLoopFrom_ok_inv {runs : Nat → RunOutcome} :
    ∀ (samples : List (List Char × List Char)) (idx : Nat)
      (rs : List CaseResult) (p : Nat),
    evalLoopFrom runs idx samples = .ok (rs, p) →
    rs = loopResults runs idx samples ∧ p = rs.countP (fun r => r.ok) := by
  intro samples
  induction samples with
  | nil =>
    intro idx rs p h
    simp only [evalLoopFrom] at h
    have h1 := (Except.ok.injEq _ _ ▸ h)
    obtain ⟨h2, h3⟩ := Prod.mk.injEq _ _ _ _ ▸ h1.symm
    subst h2
    subst h3
    exact ⟨rfl, rfl⟩
  | cons s rest ih =>
    intro idx rs p h
    obtain ⟨inp, expd⟩ := s
    simp only [evalLoopFrom] at h
    cases hr : runs idx with
    | raised m =>
      rw [hr] at h
      simp at h
    | completed rc out err =>
      rw [hr] at h
      cases hrec : evalLoopFrom runs (idx + 1) rest with
      | error m =>
        rw [hrec] at h
        simp at h
      | ok pr =>
        obtain ⟨rs', p'⟩ := pr
        rw [hrec] at h
        simp only [Except.ok.injEq, Prod.mk.injEq] at h
        obtain ⟨h1, h2⟩ := h
        obtain ⟨ha, hb⟩ := ih (idx + 1) rs' p' hrec
        subst h1
        subst h2
        constructor
        · rw [ha, loopResults, caseOf_completed hr]
        · rw [List.countP_cons]
          simp
          omega
    | timedOut =>
      rw [hr] at h
      cases hrec : evalLoopFrom runs (idx + 1) rest with
      | error m =>
        rw [hrec] at h
        simp at h
      | ok pr =>
        obtain ⟨rs', p'⟩ := pr
        rw [hrec] at h
        simp only [Except.ok.injEq, Prod.mk.injEq] at h
        obtain ⟨h1, h2⟩ := h
        obtain ⟨ha, hb⟩ := ih (idx + 1) rs' p' hrec
        subst h1
        subst h2
        constructor
        · rw [ha, loopResults, caseOf_timedOut hr]
        · rw [List.countP_cons]
          simp
          omega

theorem loopTrace_mem {runs : Nat → RunOutcome} :
    ∀ (samples : List (List Char × List Char)) (idx : Nat) (a : EvalAction),
    a ∈ loopTrace runs idx samples → ∃ i, a = EvalAction.runCase i := by
  intro samples
  induction samples with
  | nil =>
    intro idx a h
    simp [loopTrace] at h
  | cons s rest ih =>
    intro idx a h
    simp only [loopTrace] at h
    rcases List.mem_cons.mp h with rfl | h2
    · exact ⟨idx, rfl⟩
    · by_cases hr : isRaised (runs idx)
      · rw [if_pos hr] at h2
        simp at h2
      · rw [if_neg hr] at h2
        exact ih (idx + 1) a h2

theorem loopTrace_no_raise {runs : Nat → RunOutcome} :
    ∀ (samples : List (List Char × List Char)) (idx : Nat),
    (∀ k, k < samples.length → isRaised (runs (idx + k)) = false) →
    loopTrace runs idx samples =
      (List.range samples.length).map (fun k => EvalAction.runCase (idx + k)) := by
  intro samples
  induction samples with
  | nil =>
    intro idx _
    rfl
  | cons s rest ih =>
    intro idx h
    have h0 : isRaised (runs idx) = false := by
      have := h 0 (by simp)
      simpa using this
    have hrest : ∀ k, k < rest.length → isRaised (runs (idx + 1 + k)) = false := by
      intro k hk
      rw [show idx + 1 + k = idx + (k + 1) from by omega]
      exact h (k + 1) (by simp; omega)
    show EvalAction.runCase idx :: _ = _
    rw [if_neg (by simp [h0]), ih (idx + 1) hrest, List.length_cons,
      List.range_succ_eq_map, List.map_cons, List.map_map]
    refine congrArg₂ _ (by rw [Nat.add_zero]) ?_
    apply List.map_congr_left
    intro k _
    show EvalAction.runCase (idx + 1 + k) = EvalAction.runCase (idx + (k + 1))
    rw [show idx + 1 + k = idx + (k + 1) from by omega]

/-- When the first k invocations succeed or time out and invocation
k+1 raises, the loop escapes with that exception after attempting
exactly the first k+1 cases. -/
theorem evalLoopFrom_raised {runs : Nat → RunOutcome} :
    ∀ (samples : List (List Char × List Char)) (idx k : Nat) (msg : List Char),
    k < samples.length →
    (∀ j, j < k → isRaised (runs (idx + j)) = false) →
    runs (idx + k) = .raised msg →
    evalLoopFrom runs idx samples = .error msg ∧
    loopTrace runs idx samples =
      (List.range (k + 1)).map (fun j => EvalAction.runCase (idx + j)) := by
  intro samples
  induction samples with
  | nil =>
    intro idx k msg hk
    simp at hk
  | cons s rest ih =>
    intro idx k msg hk hpre hrk
    obtain ⟨inp, expd⟩ := s
    cases k with
    | zero =>
      rw [Nat.add_zero] at hrk
      refine ⟨by simp [evalLoopFrom, hrk], ?_⟩
      show EvalAction.runCase idx :: _ = _
      rw [if_pos (by simp [hrk, isRaised])]
      simp [List.range_succ]
    | succ k =>
      have h0 : isRaised (runs idx) = false := by
        have := hpre 0 (by omega)
        simpa using this
      have hk' : k < rest.length := by simpa using hk
      have hpre' : ∀ j, j < k → isRaised (runs (idx + 1 + j)) = false := by
        intro j hj
        rw [show idx + 1 + j = idx + (j + 1) from by omega]
        exact hpre (j + 1) (by omega)
      have hrk' : runs (idx + 1 + k) = .raised msg := by
        rw [show idx + 1 + k = idx + (k + 1) from by omega]
        exact hrk
      obtain ⟨ha, hb⟩ := ih (idx + 1) k msg hk' hpre' hrk'
      constructor
      · cases hr : runs idx with
        | raised m =>
          rw [hr] at h0
          simp [isRaised] at h0
        | completed rc out err => simp [evalLoopFrom, hr, ha]
        | timedOut => simp [evalLoopFrom, hr, ha]
      · show EvalAction.runCase idx :: _ = _
        rw [if_neg (by simp [h0]), hb]
        conv_rhs => rw [List.range_succ_eq_map, List.map_cons, List.map_map]
        congr 1
        apply List.map_congr_left
        intro j _
        simp only [Function.comp]
        congr 1
        omega

theorem pyRoundDiv_le_100 {p t : Nat} (hpt : p ≤ t) (ht : 0 < t) :
    pyRoundDiv (100 * p) t ≤ 100 := by
  have hn : 100 * p ≤ 100 * t := Nat.mul_le_mul_left 100 hpt
  have hq : 100 * p / t ≤ 100 := by
    calc 100 * p / t ≤ 100 * t / t := Nat.div_le_div_right hn
    _ = 100 := Nat.mul_div_cancel 100 ht
  have hdm : t * (100 * p / t) + 100 * p % t = 100 * p :=
    Nat.div_add_mod (100 * p) t
  have hrlt : 100 * p % t < t := Nat.mod_lt _ ht
  unfold pyRoundDiv
  by_cases h1 : 2 * (100 * p % t) < t
  · rw [if_pos h1]
    exact hq
  · rw [if_neg h1]
    by_cases h2 : t < 2 * (100 * p % t)
    · rw [if_pos h2]
      have hr0 : 0 < 100 * p % t := by omega
      have h4 : t * (100 * p / t) < t * 100 := by
        have h5 : 100 * t = t * 100 := Nat.mul_comm 100 t
        omega
      have h6 : 100 * p / t < 100 := Nat.lt_of_mul_lt_mul_left h4
      omega
    · rw [if_neg h2]
      by_cases h3 : (100 * p / t) % 2 = 0
      · rw [if_pos h3]
        exact hq
      · rw [if_neg h3]
        omega

/-! Reduction lemmas for the per-language evaluators and the
orchestrator. -/

theorem evaluate_cpp_ran {compileRes : Int × List Char × List Char}
    {runs : Nat → RunOutcome} {samples : List (List Char × List Char)}
    (hrc : compileRes.1 = 0)
    (hnr : ∀ k, k < samples.length → isRaised (runs (1 + k)) = false) :
    evaluate_cpp_solution compileRes runs samples =
      (.ok (.ran ((loopResults runs 1 samples).countP (fun r => r.ok))
        samples.length (loopResults runs 1 samples)),
       EvalAction.build :: loopTrace runs 1 samples) := by
  unfold evaluate_cpp_solution
  rw [if_neg (by simp [hrc]), evalLoopFrom_eq samples 1 hnr]

theorem evaluate_java_ran {compileRes : Int × List Char × List Char}
    {runs : Nat → RunOutcome} {samples : List (List Char × List Char)}
    (hrc : compileRes.1 = 0)
    (hnr : ∀ k, k < samples.length → isRaised (runs (1 + k)) = false) :
    evaluate_java_solution compileRes runs samples =
      (.ok (.ran ((loopResults runs 1 samples).countP (fun r => r.ok))
        samples.length (loopResults runs 1 samples)),
       EvalAction.build :: loopTrace runs 1 samples) := by
  unfold evaluate_java_solution
  rw [if_neg (by simp [hrc]), evalLoopFrom_eq samples 1 hnr]

theorem evaluate_python_ran {runs : Nat → RunOutcome}
    {samples : List (List Char × List Char)}
    (hnr : ∀ k, k < samples.length → isRaised (runs (1 + k)) = false) :
    evaluate_python_solution runs samples =
      (.ok (.ran ((loopResults runs 1 samples).countP (fun r => r.ok))
        samples.length (loopResults runs 1 samples)),
       loopTrace runs 1 samples) := by
  unfold evaluate_python_solution
  rw [evalLoopFrom_eq samples 1 hnr]

/-- On the codeforces platform with a known problem and a supported
language, evaluate_solution is evalCore. -/
theorem evaluate_solution_codeforces (qkey language : List Char) (env : EvalEnv)
    (hl : canonLang (pyLower language) = "cpp".toList ∨
          canonLang (pyLower language) = "python".toList ∨
          canonLang (pyLower language) = "java".toList)
    (hp : env.problemFound = true)
    (hplat : env.platform = "codeforces".toList) :
    evaluate_solution qkey language env =
      evalCore (canonLang (pyLower language)) env := by
  simp only [evaluate_solution]
  rw [if_neg (not_not_intro hl), hp, if_neg (by simp), hplat, if_pos rfl]

/-- The Done path of the orchestrator: result assembly with summary and
score when the per-language evaluation has ok true. -/
theorem evalCore_ran_result (lang : List Char) (env : EvalEnv)
    (hl : lang = "cpp".toList ∨ lang = "python".toList ∨ lang = "java".toList)
    (hs : env.samples ≠ [])
    (hc : env.compileRes.1 = 0)
    (hnr : ∀ k, k < env.samples.length → isRaised (env.runs (1 + k)) = false) :
    (evalCore lang env).1 =
      ⟨true, none, none,
        some (summaryOf ((loopResults env.runs 1 env.samples).countP (fun r => r.ok))
          env.samples.length),
        some (scoreOf ((loopResults env.runs 1 env.samples).countP (fun r => r.ok))
          env.samples.length),
        some ((loopResults env.runs 1 env.samples).countP (fun r => r.ok)),
        some env.samples.length,
        some (loopResults env.runs 1 env.samples)⟩ := by
  rcases hl with h | h | h <;> subst h
  · simp only [evalCore]
    rw [if_neg hs, if_pos trivial, evaluate_cpp_ran hc hnr]
  · simp only [evalCore]
    rw [if_neg hs, if_pos trivial, evaluate_python_ran hnr, if_neg (by decide)]
  · simp only [evalCore]
    rw [if_neg hs, if_pos trivial, evaluate_java_ran hc hnr, if_neg (by decide),
      if_neg (by decide)]

theorem loopResults_mem {runs : Nat → RunOutcome} :
    ∀ (samples : List (List Char × List Char)) (idx : Nat) (r : CaseResult),
    r ∈ loopResults runs idx samples →
    ∃ i inp expd, r = caseOf runs i inp expd := by
  intro samples
  induction samples with
  | nil =>
    intro idx r h
    simp [loopResults] at h
  | cons s rest ih =>
    intro idx r h
    obtain ⟨inp, expd⟩ := s
    simp only [loopResults] at h
    rcases List.mem_cons.mp h with rfl | h2
    · exact ⟨idx, inp, expd, rfl⟩
    · exact ih (idx + 1) r h2

theorem evaluate_cpp_ok_ran_inv {compileRes : Int × List Char × List Char}
    {runs : Nat → RunOutcome} {samples : List (List Char × List Char)}
    {p t : Nat} {rs : List CaseResult}
    (h : (evaluate_cpp_solution compileRes runs samples).1 = .ok (.ran p t rs)) :
    rs = loopResults runs 1 samples ∧ p = rs.countP (fun r => r.ok) ∧
    t = samples.length := by
  unfold evaluate_cpp_solution at h
  by_cases hrc : compileRes.1 ≠ 0
  · rw [if_pos hrc] at h
    simp at h
  · rw [if_neg hrc] at h
    cases hrec : evalLoopFrom runs 1 samples with
    | error m =>
      rw [hrec] at h
      simp at h
    | ok pr =>
      obtain ⟨rs', p'⟩ := pr
      rw [hrec] at h
      simp only [Except.ok.injEq, LangOutcome.ran.injEq] at h
      obtain ⟨h1, h2, h3⟩ := h
      obtain ⟨ha, hb⟩ := evalLoopFrom_ok_inv samples 1 rs' p' hrec
      subst h1
      subst h2
      subst h3
      exact ⟨ha, hb, rfl⟩

theorem evaluate_java_ok_ran_inv {compileRes : Int × List Char × List Char}
    {runs : Nat → RunOutcome} {samples : List (List Char × List Char)}
    {p t : Nat} {rs : List CaseResult}
    (h : (evaluate_java_solution compileRes runs samples).1 = .ok (.ran p t rs)) :
    rs = loopResults runs 1 samples ∧ p = rs.countP (fun r => r.ok) ∧
    t = samples.length := by
  unfold evaluate_java_solution at h
  by_cases hrc : compileRes.1 ≠ 0
  · rw [if_pos hrc] at h
    simp at h
  · rw [if_neg hrc] at h
    cases hrec : evalLoopFrom runs 1 samples with
    | error m =>
      rw [hrec] at h
      simp at h
    | ok pr =>
      obtain ⟨rs', p'⟩ := pr
      rw [hrec] at h
      simp only [Except.ok.injEq, LangOutcome.ran.injEq] at h
      obtain ⟨h1, h2, h3⟩ := h
      obtain ⟨ha, hb⟩ := evalLoopFrom_ok_inv samples 1 rs' p' hrec
      subst h1
      subst h2
      subst h3
      exact ⟨ha, hb, rfl⟩

theorem evaluate_python_ok_ran_inv {runs : Nat → RunOutcome}
    {samples : List (List Char × List Char)} {p t : Nat} {rs : List CaseResult}
    (h : (evaluate_python_solution runs samples).1 = .ok (.ran p t rs)) :
    rs = loopResults runs 1 samples ∧ p = rs.countP (fun r => r.ok) ∧
    t = samples.length := by
  unfold evaluate_python_solution at h
  cases hrec : evalLoopFrom runs 1 samples with
  | error m =>
    rw [hrec] at h
    simp at h
  | ok pr =>
    obtain ⟨rs', p'⟩ := pr
    rw [hrec] at h
    simp only [Except.ok.injEq, LangOutcome.ran.injEq] at h
    obtain ⟨h1, h2, h3⟩ := h
    obtain ⟨ha, hb⟩ := evalLoopFrom_ok_inv samples 1 rs' p' hrec
    subst h1
    subst h2
    subst h3
    exact ⟨ha, hb, rfl⟩

theorem take_ne_nil_of_ne_nil {l : List Char} (h : l ≠ []) (n : Nat)
    (hn : 0 < n) : l.take n ≠ [] := by
  cases l with
  | nil => exact absurd rfl h
  | cons a t =>
    cases n with
    | zero => omega
    | succ n => simp [List.take]

theorem evaluate_cpp_trace_mem (compileRes : Int × List Char × List Char)
    (runs : Nat → RunOutcome) (samples : List (List Char × List Char)) :
    ∀ a ∈ (evaluate_cpp_solution compileRes runs samples).2,
    a = EvalAction.build ∨ ∃ i, a = EvalAction.runCase i := by
  unfold evaluate_cpp_solution
  by_cases hrc : compileRes.1 ≠ 0
  · rw [if_pos hrc]
    intro a ha
    simp at ha
    exact Or.inl ha
  · rw [if_neg hrc]
    cases hrec : evalLoopFrom runs 1 samples with
    | error m =>
      intro a ha
      simp only at ha
      rcases List.mem_cons.mp ha with rfl | h2
      · exact Or.inl rfl
      · exact Or.inr (loopTrace_mem samples 1 a h2)
    | ok pr =>
      intro a ha
      simp only at ha
      rcases List.mem_cons.mp ha with rfl | h2
      · exact Or.inl rfl
      · exact Or.inr (loopTrace_mem samples 1 a h2)

theorem evaluate_java_trace_mem (compileRes : Int × List Char × List Char)
    (runs : Nat → RunOutcome) (samples : List (List Char × List Char)) :
    ∀ a ∈ (evaluate_java_solution compileRes runs samples).2,
    a = EvalAction.build ∨ ∃ i, a = EvalAction.runCase i := by
  unfold evaluate_java_solution
  by_cases hrc : compileRes.1 ≠ 0
  · rw [if_pos hrc]
    intro a ha
    simp at ha
    exact Or.inl ha
  · rw [if_neg hrc]
    cases hrec : evalLoopFrom runs 1 samples with
    | error m =>
      intro a ha
      simp only at ha
      rcases List.mem_cons.mp ha with rfl | h2
      · exact Or.inl rfl
      · exact Or.inr (loopTrace_mem samples 1 a h2)
    | ok pr =>
      intro a ha
      simp only at ha
      rcases List.mem_cons.mp ha with rfl | h2
      · exact Or.inl rfl
      · exact Or.inr (loopTrace_mem samples 1 a h2)

theorem evaluate_python_trace_mem (runs : Nat → RunOutcome)
    (samples : List (List Char × List Char)) :
    ∀ a ∈ (evaluate_python_solution runs samples).2,
    a = EvalAction.build ∨ ∃ i, a = EvalAction.runCase i := by
  unfold evaluate_python_solution
  cases hrec : evalLoopFrom runs 1 samples with
  | error m =>
    intro a ha
    simp only at ha
    exact Or.inr (loopTrace_mem samples 1 a ha)
  | ok pr =>
    intro a ha
    simp only at ha
    exact Or.inr (loopTrace_mem samples 1 a ha)

/-- Count and last-element facts for the try/finally trace shape. -/
theorem dir_facts_of_inner (tr : List EvalAction)
    (h : ∀ a ∈ tr, a = EvalAction.build ∨ ∃ i, a = EvalAction.runCase i) :
    ((EvalAction.mkTmpdir :: (tr ++ [EvalAction.rmTmpdir])).count
        EvalAction.mkTmpdir =
      (EvalAction.mkTmpdir :: (tr ++ [EvalAction.rmTmpdir])).count
        EvalAction.rmTmpdir) ∧
    (EvalAction.mkTmpdir :: (tr ++ [EvalAction.rmTmpdir])).getLast? =
      some EvalAction.rmTmpdir := by
  have hmk : EvalAction.mkTmpdir ∉ tr := by
    intro hm
    rcases h _ hm with h2 | ⟨i, h2⟩ <;> simp at h2
  have hrm : EvalAction.rmTmpdir ∉ tr := by
    intro hm
    rcases h _ hm with h2 | ⟨i, h2⟩ <;> simp at h2
  constructor
  · rw [List.count_cons, List.count_cons, List.count_append, List.count_append,
      List.count_eq_zero.mpr hmk, List.count_eq_zero.mpr hrm]
    simp [List.count_singleton]
  · rw [show EvalAction.mkTmpdir :: (tr ++ [EvalAction.rmTmpdir]) =
      (EvalAction.mkTmpdir :: tr) ++ [EvalAction.rmTmpdir] from rfl,
      List.getLast?_concat]

/-- The BuildFailed path of the orchestrator core for the compiled
languages. -/
theorem evalCore_buildFailed (lang : List Char) (env : EvalEnv)
    (hl : lang = "cpp".toList ∨ lang = "java".toList)
    (hs : env.samples ≠ []) (hrc : env.compileRes.1 ≠ 0) :
    evalCore lang env =
      (⟨false, none, some (env.compileRes.2.2.take 2000),
        some ("Compilation failed".toList), none, none, none, some []⟩,
       EvalAction.mkTmpdir :: ([EvalAction.build] ++ [EvalAction.rmTmpdir])) := by
  rcases hl with h | h <;> subst h
  · simp only [evalCore]
    rw [if_neg hs, if_pos trivial]
    unfold evaluate_cpp_solution
    rw [if_pos hrc]
  · simp only [evalCore]
    rw [if_neg hs, if_pos trivial]
    unfold evaluate_java_solution
    rw [if_pos hrc, if_neg (by decide), if_neg (by decide)]

/-- The path where a per-case invocation raises an unexpected exception
under the python adapter: the loop escapes, the top-level handler turns
it into an error dict, and the finally still removes the tmpdir. -/
theorem evalCore_raised_python (env : EvalEnv) (k : Nat) (msg : List Char)
    (hk : k < env.samples.length)
    (hpre : ∀ j, j < k → isRaised (env.runs (1 + j)) = false)
    (hr : env.runs (1 + k) = .raised msg) :
    evalCore ("python".toList) env =
      (⟨false, some (("Evaluation error: ".toList) ++ msg), none, none, none,
        none, none, none⟩,
       EvalAction.mkTmpdir ::
         ((List.range (k + 1)).map (fun j => EvalAction.runCase (1 + j)) ++
           [EvalAction.rmTmpdir])) := by
  have hs : env.samples ≠ [] := by
    intro he
    rw [he] at hk
    simp at hk
  obtain ⟨ha, hb⟩ := evalLoopFrom_raised env.samples 1 k msg hk hpre hr
  simp only [evalCore]
  rw [if_neg hs, if_pos trivial]
  unfold evaluate_python_solution
  rw [ha, hb, if_neg (by decide)]

/-! The claims. -/

/-- C7: `_normalize` equals the spec's pipeline (split on line
boundaries, right-trim each line, re-join with a single newline, trim
the whole result); it is total by construction and maps the empty string
to the empty string; and a case passes iff the exit code is 0 and the
normalized observed output equals the normalized expected output. -/
theorem claim_C7_normalizer_contract :
    (∀ s : List Char, _normalize s = specNormalize s) ∧
    _normalize [] = [] ∧
    (∀ (runs : Nat → RunOutcome) (samples : List (List Char × List Char))
       (k : Nat) (rs : List CaseResult) (p : Nat) (rc : Int)
       (out err : List Char) (hk : k < samples.length)
       (hk2 : k < rs.length),
      evalLoopFrom runs 1 samples = .ok (rs, p) →
      runs (1 + k) = .completed rc out err →
      (rs.get ⟨k, hk2⟩).ok =
        decide (rc = 0 ∧ _normalize out = _normalize ((samples.get ⟨k, hk⟩).2))) := by
  refine ⟨_normalize_eq_specNormalize, rfl, ?_⟩
  intro runs samples k rs p rc out err hk hk2 h hr
  obtain ⟨ha, hb⟩ := evalLoopFrom_ok_inv samples 1 rs p h
  subst ha
  rw [loopResults_get runs samples 1 k hk hk2, caseOf_completed hr]

def wRunsC7 : Nat → RunOutcome := fun _ => .completed 0 ("1\n".toList) []

def wSamplesC7 : List (List Char × List Char) := [("1".toList, "1\n".toList)]

/-- Witness for C7 at concrete inputs. -/
theorem claim_C7_witness :
    _normalize ("  a \r\n\nb  ".toList) = specNormalize ("  a \r\n\nb  ".toList) ∧
    ((loopResults wRunsC7 1 wSamplesC7).get ⟨0, by decide⟩).ok =
      decide ((0 : Int) = 0 ∧
        _normalize ("1\n".toList) =
          _normalize ((wSamplesC7.get ⟨0, by decide⟩).2)) :=
  ⟨claim_C7_normalizer_contract.1 ("  a \r\n\nb  ".toList),
   claim_C7_normalizer_contract.2.2 wRunsC7 wSamplesC7 0
     (loopResults wRunsC7 1 wSamplesC7)
     ((loopResults wRunsC7 1 wSamplesC7).countP (fun r : CaseResult => r.ok)) 0
     ("1\n".toList) [] (by decide) (by decide) rfl rfl⟩

/-- C8: normalization is idempotent, and appending trailing spaces to
each line of a text and/or trailing blank lines (an all-whitespace
suffix) does not change its normal form. -/
theorem claim_C8_normalize_algebra :
    (∀ x : List Char, _normalize (_normalize x) = _normalize x) ∧
    (∀ (x : List Char) (ss : List (List Char)) (w : List Char),
      ss.length = (splitlines x).length →
      (∀ s ∈ ss, ∀ c ∈ s, c = ' ') →
      (∀ c ∈ w, isWS c) →
      _normalize
          (joinNL (List.zipWith (fun l e => l ++ e) (splitlines x) ss) ++ w) =
        _normalize x) := by
  constructor
  · intro x
    rw [_normalize_eq_specNormalize, _normalize_eq_specNormalize,
      specNormalize_idem]
  · intro x ss w h1 h2 h3
    rw [_normalize_eq_specNormalize, _normalize_eq_specNormalize,
      specNormalize_tolerance x ss w h1 h2 h3]

/-- Witness for C8 at concrete inputs. -/
theorem claim_C8_witness :
    _normalize (_normalize ("ab \n\ncd ".toList)) =
      _normalize ("ab \n\ncd ".toList) ∧
    _normalize
        (joinNL (List.zipWith (fun l e => l ++ e)
          (splitlines ("ab\ncd".toList)) [(" ".toList), ("  ".toList)]) ++
          ("\n \n".toList)) =
      _normalize ("ab\ncd".toList) :=
  ⟨claim_C8_normalize_algebra.1 ("ab \n\ncd ".toList),
   claim_C8_normalize_algebra.2 ("ab\ncd".toList)
     [(" ".toList), ("  ".toList)] ("\n \n".toList)
     (by decide) (by decide) (by decide)⟩

/-- C1: for every non-empty sample list on which the build succeeds (and
each per-case invocation completes or times out, the behaviors the claim
addresses; an unexpected exception is claim C2's subject), the cpp
evaluation returns exactly one CaseResult per sample, in input order,
with 1-indexed case numbers; a timeout or mismatch on one case never
skips later samples, since the results list always has full length. -/
theorem claim_C1_order_preservation
    (compileRes : Int × List Char × List Char) (runs : Nat → RunOutcome)
    (samples : List (List Char × List Char))
    (hne : samples ≠ [])
    (hrc : compileRes.1 = 0)
    (hnr : ∀ k, k < samples.length → isRaised (runs (1 + k)) = false) :
    (evaluate_cpp_solution compileRes runs samples).1 =
      .ok (.ran ((loopResults runs 1 samples).countP (fun r => r.ok))
        samples.length (loopResults runs 1 samples)) ∧
    (loopResults runs 1 samples).length = samples.length ∧
    (∀ (k : Nat) (hk : k < samples.length)
       (hk2 : k < (loopResults runs 1 samples).length),
      ((loopResults runs 1 samples).get ⟨k, hk2⟩).caseIdx = k + 1 ∧
      ((loopResults runs 1 samples).get ⟨k, hk2⟩).input =
        (samples.get ⟨k, hk⟩).1.take 1000 ∧
      ((loopResults runs 1 samples).get ⟨k, hk2⟩).expected =
        (samples.get ⟨k, hk⟩).2.take 1000) := by
  refine ⟨by rw [evaluate_cpp_ran hrc hnr], loopResults_length runs samples 1, ?_⟩
  intro k hk hk2
  rw [loopResults_get runs samples 1 k hk hk2]
  obtain ⟨hi, he⟩ :=
    caseOf_input runs (1 + k) (samples.get ⟨k, hk⟩).1 (samples.get ⟨k, hk⟩).2
  exact ⟨by rw [caseOf_caseIdx]; omega, hi, he⟩

def wRunsC1 : Nat → RunOutcome := fun k =>
  if k = 1 then .completed 0 ("9\n".toList) [] else .timedOut

def wSamplesC1 : List (List Char × List Char) :=
  [("3\n".toList, "9\n".toList), ("5\n".toList, "25\n".toList)]

/-- Witness for C1: two samples, one passing and one timing out; both
cases are reported, in order, with 1-indexed case numbers. -/
theorem claim_C1_witness :
    (evaluate_cpp_solution (0, [], []) wRunsC1 wSamplesC1).1 =
      .ok (.ran 1 2 (loopResults wRunsC1 1 wSamplesC1)) ∧
    (loopResults wRunsC1 1 wSamplesC1).length = 2 ∧
    ((loopResults wRunsC1 1 wSamplesC1).get ⟨0, by decide⟩).caseIdx = 1 ∧
    ((loopResults wRunsC1 1 wSamplesC1).get ⟨1, by decide⟩).caseIdx = 2 := by
  obtain ⟨h1, h2, h3⟩ := claim_C1_order_preservation (0, [], []) wRunsC1
    wSamplesC1 (by decide) rfl
    (by
      intro k hk
      have hk2 : k < 2 := by simpa [wSamplesC1] using hk
      interval_cases k <;> rfl)
  refine ⟨h1.trans rfl, h2.trans rfl, ?_, ?_⟩
  · exact (h3 0 (by decide) (by decide)).1
  · exact (h3 1 (by decide) (by decide)).1

/-- C3: a sample whose execution exceeds the time budget yields a case
dict with ok false, timeout true and no exit_code key, it is not counted
as passed (passed counts only ok cases), all subsequent samples are
still executed and reported, and a completed case is reported distinctly
(timeout false and an exit_code). -/
theorem claim_C3_timeout_isolation
    (compileRes : Int × List Char × List Char) (runs : Nat → RunOutcome)
    (samples : List (List Char × List Char)) (k : Nat)
    (hrc : compileRes.1 = 0)
    (hnr : ∀ j, j < samples.length → isRaised (runs (1 + j)) = false)
    (hk : k < samples.length)
    (ht : runs (1 + k) = .timedOut) :
    (evaluate_cpp_solution compileRes runs samples).1 =
      .ok (.ran ((loopResults runs 1 samples).countP (fun r => r.ok))
        samples.length (loopResults runs 1 samples)) ∧
    (loopResults runs 1 samples).length = samples.length ∧
    (∀ hk2 : k < (loopResults runs 1 samples).length,
      ((loopResults runs 1 samples).get ⟨k, hk2⟩).ok = false ∧
      ((loopResults runs 1 samples).get ⟨k, hk2⟩).timeout = true ∧
      ((loopResults runs 1 samples).get ⟨k, hk2⟩).exit_code = none ∧
      ((loopResults runs 1 samples).get ⟨k, hk2⟩).stderr =
        "Time Limit Exceeded".toList) ∧
    (∀ (j : Nat) (rc : Int) (out err : List Char) (hj : j < samples.length)
       (hj2 : j < (loopResults runs 1 samples).length),
      runs (1 + j) = .completed rc out err →
      ((loopResults runs 1 samples).get ⟨j, hj2⟩).timeout = false ∧
      ((loopResults runs 1 samples).get ⟨j, hj2⟩).exit_code = some rc) := by
  refine ⟨by rw [evaluate_cpp_ran hrc hnr], loopResults_length runs samples 1,
    ?_, ?_⟩
  · intro hk2
    rw [loopResults_get runs samples 1 k hk hk2, caseOf_timedOut ht]
    exact ⟨rfl, rfl, rfl, rfl⟩
  · intro j rc out err hj hj2 hcomp
    rw [loopResults_get runs samples 1 j hj hj2, caseOf_completed hcomp]
    exact ⟨rfl, rfl⟩

def wRunsC3 : Nat → RunOutcome := fun k =>
  if k = 1 then .timedOut else .completed 0 ("25\n".toList) []

def wSamplesC3 : List (List Char × List Char) :=
  [("3\n".toList, "9\n".toList), ("5\n".toList, "25\n".toList)]

/-- Witness for C3: case 1 times out, case 2 still runs and passes. -/
theorem claim_C3_witness :
    (evaluate_cpp_solution (0, [], []) wRunsC3 wSamplesC3).1 =
      .ok (.ran 1 2 (loopResults wRunsC3 1 wSamplesC3)) ∧
    ((loopResults wRunsC3 1 wSamplesC3).get ⟨0, by decide⟩).timeout = true ∧
    ((loopResults wRunsC3 1 wSamplesC3).get ⟨0, by decide⟩).exit_code = none ∧
    ((loopResults wRunsC3 1 wSamplesC3).get ⟨1, by decide⟩).timeout = false ∧
    ((loopResults wRunsC3 1 wSamplesC3).get ⟨1, by decide⟩).exit_code = some 0 := by
  obtain ⟨h1, h2, h3, h4⟩ := claim_C3_timeout_isolation (0, [], []) wRunsC3
    wSamplesC3 0 rfl
    (by
      intro j hj
      have hj2 : j < 2 := by simpa [wSamplesC3] using hj
      interval_cases j <;> rfl) (by decide) rfl
  obtain ⟨_, hb, hc, _⟩ := h3 (by decide)
  obtain ⟨hd, he⟩ := h4 1 0 ("25\n".toList) [] (by decide) (by decide) rfl
  exact ⟨h1.trans rfl, hb, hc, hd, he⟩

/-- C6: an evaluation reaching the Done state (supported language, known
problem, codeforces platform, nonempty samples, build succeeding, every
invocation completing or timing out) returns ok true, passed equal to
the number of passing cases, total equal to the sample count, score
computed by the round(100 * passed / total) formula, and the exact
summary string built from passed, total and score. -/
theorem claim_C6_done_summary (qkey language : List Char) (env : EvalEnv)
    (hl : canonLang (pyLower language) = "cpp".toList ∨
          canonLang (pyLower language) = "python".toList ∨
          canonLang (pyLower language) = "java".toList)
    (hp : env.problemFound = true)
    (hplat : env.platform = "codeforces".toList)
    (hs : env.samples ≠ [])
    (hc : env.compileRes.1 = 0)
    (hnr : ∀ k, k < env.samples.length → isRaised (env.runs (1 + k)) = false) :
    (evaluate_solution qkey language env).1 =
      ⟨true, none, none,
        some (("Passed ".toList) ++
          Nat.toDigits 10
            ((loopResults env.runs 1 env.samples).countP (fun r => r.ok)) ++
          ("/".toList) ++ Nat.toDigits 10 env.samples.length ++
          (" tests · Score: ".toList) ++
          Nat.toDigits 10
            (scoreOf ((loopResults env.runs 1 env.samples).countP (fun r => r.ok))
              env.samples.length) ++ ("%".toList)),
        some (scoreOf
          ((loopResults env.runs 1 env.samples).countP (fun r => r.ok))
          env.samples.length),
        some ((loopResults env.runs 1 env.samples).countP (fun r => r.ok)),
        some env.samples.length,
        some (loopResults env.runs 1 env.samples)⟩ := by
  rw [evaluate_solution_codeforces qkey language env hl hp hplat,
    evalCore_ran_result (canonLang (pyLower language)) env hl hs hc hnr]
  simp only [summaryOf]

def envC6 : EvalEnv :=
  ⟨true, "codeforces".toList, none,
   [("3\n".toList, "9\n".toList), ("5\n".toList, "25\n".toList)],
   (0, [], []),
   fun k => if k = 1 then .completed 0 ("9\n".toList) []
            else .completed 0 ("25\n".toList) []⟩

/-- Witness for C6: the squaring scenario with two passing samples gives
ok true, passed 2/2 and the exact summary string with score 100. -/
theorem claim_C6_witness :
    (evaluate_solution ("q1".toList) ("C++".toList) envC6).1 =
      ⟨true, none, none, some ("Passed 2/2 tests · Score: 100%".toList),
        some 100, some 2, some 2,
        some (loopResults envC6.runs 1 envC6.samples)⟩ := by
  have h := claim_C6_done_summary ("q1".toList) ("C++".toList) envC6
    (Or.inl rfl) rfl rfl (by decide) rfl
    (by
      intro k hk
      have hk2 : k < 2 := by simpa [envC6] using hk
      interval_cases k <;> rfl)
  exact h.trans (by decide)

/-- C10: invariants of every per-language result with ok true, for all
three adapters: passed counts the ok entries of results, total equals
both the sample-list length and the results length, passed is at most
total, the derived score is at most 100 (and at least 0, being a Nat),
and every CaseResult is truncated: input, expected and got to at most
1000 characters and stderr to at most 500. -/
theorem claim_C10_result_invariants :
    (∀ (compileRes : Int × List Char × List Char) (runs : Nat → RunOutcome)
       (samples : List (List Char × List Char)) (p t : Nat)
       (rs : List CaseResult),
      (evaluate_cpp_solution compileRes runs samples).1 = .ok (.ran p t rs) →
      p = rs.countP (fun r => r.ok) ∧ t = samples.length ∧ t = rs.length ∧
      p ≤ t ∧ scoreOf p t ≤ 100 ∧
      (∀ r ∈ rs, r.input.length ≤ 1000 ∧ r.expected.length ≤ 1000 ∧
        r.got.length ≤ 1000 ∧ r.stderr.length ≤ 500)) ∧
    (∀ (runs : Nat → RunOutcome) (samples : List (List Char × List Char))
       (p t : Nat) (rs : List CaseResult),
      (evaluate_python_solution runs samples).1 = .ok (.ran p t rs) →
      p = rs.countP (fun r => r.ok) ∧ t = samples.length ∧ t = rs.length ∧
      p ≤ t ∧ scoreOf p t ≤ 100 ∧
      (∀ r ∈ rs, r.input.length ≤ 1000 ∧ r.expected.length ≤ 1000 ∧
        r.got.length ≤ 1000 ∧ r.stderr.length ≤ 500)) ∧
    (∀ (compileRes : Int × List Char × List Char) (runs : Nat → RunOutcome)
       (samples : List (List Char × List Char)) (p t : Nat)
       (rs : List CaseResult),
      (evaluate_java_solution compileRes runs samples).1 = .ok (.ran p t rs) →
      p = rs.countP (fun r => r.ok) ∧ t = samples.length ∧ t = rs.length ∧
      p ≤ t ∧ scoreOf p t ≤ 100 ∧
      (∀ r ∈ rs, r.input.length ≤ 1000 ∧ r.expected.length ≤ 1000 ∧
        r.got.length ≤ 1000 ∧ r.stderr.length ≤ 500)) := by
  have key : ∀ (runs : Nat → RunOutcome)
      (samples : List (List Char × List Char)) (p t : Nat)
      (rs : List CaseResult),
      rs = loopResults runs 1 samples → p = rs.countP (fun r => r.ok) →
      t = samples.length →
      p = rs.countP (fun r => r.ok) ∧ t = samples.length ∧ t = rs.length ∧
      p ≤ t ∧ scoreOf p t ≤ 100 ∧
      (∀ r ∈ rs, r.input.length ≤ 1000 ∧ r.expected.length ≤ 1000 ∧
        r.got.length ≤ 1000 ∧ r.stderr.length ≤ 500) := by
    intro runs samples p t rs hrs hp ht
    have hlen : rs.length = samples.length := by
      rw [hrs]
      exact loopResults_length runs samples 1
    have hple : p ≤ t := by
      rw [hp, ht, ← hlen]
      exact List.countP_le_length _
    refine ⟨hp, ht, by omega, hple, ?_, ?_⟩
    · unfold scoreOf
      by_cases h0 : 0 < t
      · rw [if_pos h0]
        exact pyRoundDiv_le_100 hple h0
      · rw [if_neg h0]
        omega
    · intro r hr
      obtain ⟨i, inp, expd, rfl⟩ := loopResults_mem samples 1 r (hrs ▸ hr)
      exact caseOf_bounds runs i inp expd
  refine ⟨?_, ?_, ?_⟩
  · intro compileRes runs samples p t rs h
    obtain ⟨h1, h2, h3⟩ := evaluate_cpp_ok_ran_inv h
    exact key runs samples p t rs h1 h2 h3
  · intro runs samples p t rs h
    obtain ⟨h1, h2, h3⟩ := evaluate_python_ok_ran_inv h
    exact key runs samples p t rs h1 h2 h3
  · intro compileRes runs samples p t rs h
    obtain ⟨h1, h2, h3⟩ := evaluate_java_ok_ran_inv h
    exact key runs samples p t rs h1 h2 h3

def wRunsC10 : Nat → RunOutcome := fun k =>
  if k = 1 then .completed 0 ("9\n".toList) [] else .timedOut

def wSamplesC10 : List (List Char × List Char) :=
  [("3\n".toList, "9\n".toList), ("5\n".toList, "25\n".toList)]

/-- Witness for C10 at a concrete cpp evaluation. -/
theorem claim_C10_witness :
    1 = (loopResults wRunsC10 1 wSamplesC10).countP (fun r => r.ok) ∧
    2 = wSamplesC10.length ∧
    scoreOf 1 2 ≤ 100 := by
  have h := claim_C10_result_invariants.1 (0, [], []) wRunsC10 wSamplesC10 1 2
    (loopResults wRunsC10 1 wSamplesC10) rfl
  exact ⟨h.1, h.2.1, h.2.2.2.2.1⟩

def envC2 : EvalEnv :=
  ⟨true, "codeforces".toList, none,
   [("1".toList, "1".toList), ("2".toList, "2".toList)],
   (0, [], []), fun _ => .raised ("boom".toList)⟩

/-- C2 counterexample: an unexpected (non-timeout) exception while
invoking the first sample's process is NOT caught per-case — the loop
catches only subprocess.TimeoutExpired, so the exception escapes to the
top-level handler of evaluate_solution, which returns a top-level error
dict (ok false, error populated, no results key) and the second sample
is never attempted.  This refutes the claim, which requires a failed
CaseResult for that case only and no top-level failure. -/
theorem claim_C2_counterexample :
    (evaluate_solution ("q1".toList) ("python".toList) envC2).1.ok = false ∧
    (evaluate_solution ("q1".toList) ("python".toList) envC2).1.error =
      some ("Evaluation error: boom".toList) ∧
    (evaluate_solution ("q1".toList) ("python".toList) envC2).1.results = none ∧
    EvalAction.runCase 2 ∉
      (evaluate_solution ("q1".toList) ("python".toList) envC2).2 :=
  ⟨rfl, rfl, rfl, by decide⟩

/-- C2 amended: an unexpected non-timeout exception raised while
invoking sample k+1's process propagates out of the per-sample loop
(only TimeoutExpired is caught per-case); evaluate_solution's generic
handler turns it into a top-level failure dict with ok false and
error = "Evaluation error: " plus the message, with no results key;
later samples are not attempted (the trace stops at case k+1), and the
temp directory is still removed. -/
theorem claim_C2_amended (qkey : List Char) (env : EvalEnv) (k : Nat)
    (msg : List Char)
    (hp : env.problemFound = true)
    (hplat : env.platform = "codeforces".toList)
    (hk : k < env.samples.length)
    (hpre : ∀ j, j < k → isRaised (env.runs (1 + j)) = false)
    (hr : env.runs (1 + k) = .raised msg) :
    (evaluate_solution qkey ("python".toList) env).1 =
      ⟨false, some (("Evaluation error: ".toList) ++ msg), none, none, none,
        none, none, none⟩ ∧
    (evaluate_solution qkey ("python".toList) env).2 =
      EvalAction.mkTmpdir ::
        ((List.range (k + 1)).map (fun j => EvalAction.runCase (1 + j)) ++
          [EvalAction.rmTmpdir]) := by
  rw [evaluate_solution_codeforces qkey ("python".toList) env
    (Or.inr (Or.inl rfl)) hp hplat,
    show canonLang (pyLower ("python".toList)) = "python".toList from rfl,
    evalCore_raised_python env k msg hk hpre hr]
  exact ⟨rfl, rfl⟩

/-- Witness for the amended C2 at a concrete input. -/
theorem claim_C2_amended_witness :
    (evaluate_solution ("q1".toList) ("python".toList) envC2).1 =
      ⟨false, some ("Evaluation error: boom".toList), none, none, none,
        none, none, none⟩ ∧
    (evaluate_solution ("q1".toList) ("python".toList) envC2).2 =
      [EvalAction.mkTmpdir, EvalAction.runCase 1, EvalAction.rmTmpdir] := by
  have h := claim_C2_amended ("q1".toList) envC2 0 ("boom".toList) rfl rfl
    (by decide) (by intro j hj; exact absurd hj (by omega)) rfl
  exact ⟨h.1.trans (by decide), h.2.trans (by decide)⟩

def envC4 : EvalEnv :=
  ⟨true, "codeforces".toList, none, [("1".toList, "1".toList)], (1, [], []),
   fun _ => .timedOut⟩

/-- C4 counterexample: with a compiler that exits non-zero while
printing nothing on stderr, the result's compile_error key is present
but holds the EMPTY string — refuting the "non-empty compile_error"
part of the claim (the rest of the claim holds, see the amended
theorem). -/
theorem claim_C4_counterexample :
    (evaluate_solution ("q1".toList) ("cpp".toList) envC4).1.ok = false ∧
    (evaluate_solution ("q1".toList) ("cpp".toList) envC4).1.compile_error =
      some [] :=
  ⟨rfl, rfl⟩

/-- C4 amended: a non-zero compiler exit yields ok false, compile_error
equal to the compiler's stderr truncated to 2000 characters (hence
non-empty whenever the compiler emitted any diagnostic), summary
"Compilation failed", an empty results list, and no sample is ever
executed, regardless of how many samples exist. -/
theorem claim_C4_amended (qkey language : List Char) (env : EvalEnv)
    (hl : canonLang (pyLower language) = "cpp".toList ∨
          canonLang (pyLower language) = "java".toList)
    (hp : env.problemFound = true)
    (hplat : env.platform = "codeforces".toList)
    (hs : env.samples ≠ [])
    (hrc : env.compileRes.1 ≠ 0) :
    (evaluate_solution qkey language env).1 =
      ⟨false, none, some (env.compileRes.2.2.take 2000),
        some ("Compilation failed".toList), none, none, none, some []⟩ ∧
    (env.compileRes.2.2 ≠ [] →
      (evaluate_solution qkey language env).1.compile_error ≠ some []) ∧
    (∀ i, EvalAction.runCase i ∉ (evaluate_solution qkey language env).2) := by
  have hl3 : canonLang (pyLower language) = "cpp".toList ∨
      canonLang (pyLower language) = "python".toList ∨
      canonLang (pyLower language) = "java".toList := by
    rcases hl with h | h
    · exact Or.inl h
    · exact Or.inr (Or.inr h)
  rw [evaluate_solution_codeforces qkey language env hl3 hp hplat,
    evalCore_buildFailed (canonLang (pyLower language)) env hl hs hrc]
  refine ⟨rfl, ?_, ?_⟩
  · intro hne hceq
    simp only [Option.some.injEq] at hceq
    exact take_ne_nil_of_ne_nil hne 2000 (by omega) hceq
  · intro i hmem
    simp at hmem

def envC4w : EvalEnv :=
  ⟨true, "codeforces".toList, none, [("1".toList, "1".toList)],
   (1, [], ("bad".toList)), fun _ => .timedOut⟩

/-- Witness for the amended C4 at a concrete input with a non-empty
compiler diagnostic. -/
theorem claim_C4_amended_witness :
    (evaluate_solution ("q1".toList) ("cpp".toList) envC4w).1 =
      ⟨false, none, some ("bad".toList), some ("Compilation failed".toList),
        none, none, none, some []⟩ ∧
    (evaluate_solution ("q1".toList) ("cpp".toList) envC4w).1.compile_error ≠
      some [] ∧
    EvalAction.runCase 1 ∉
      (evaluate_solution ("q1".toList) ("cpp".toList) envC4w).2 := by
  obtain ⟨h1, h2, h3⟩ := claim_C4_amended ("q1".toList) ("cpp".toList) envC4w
    (Or.inl rfl) rfl rfl (by decide) (by decide)
  exact ⟨h1.trans (by decide), h2 (by decide), h3 1⟩

def envC5a : EvalEnv :=
  ⟨true, "leetcode".toList, some ("two-sum".toList), [], (0, [], []),
   fun _ => .timedOut⟩

def envC5b : EvalEnv :=
  ⟨true, "codeforces".toList, none, [], (0, [], []), fun _ => .timedOut⟩

/-- C5 counterexample: for a LeetCode request whose resolved sample list
is empty, the result has ok = TRUE (an informational message), not the
claimed ok false; and for a codeforces request with an empty sample
list, the dict has NO results key at all (modeled results = none)
rather than an empty results list.  The error field is populated on the
codeforces path as claimed. -/
theorem claim_C5_counterexample :
    (evaluate_solution ("q1".toList) ("python".toList) envC5a).1.ok = true ∧
    (evaluate_solution ("q1".toList) ("python".toList) envC5b).1.results =
      none ∧
    (evaluate_solution ("q1".toList) ("python".toList) envC5b).1.error =
      some ("Samples unavailable".toList) :=
  ⟨rfl, rfl, rfl⟩

/-- C5 amended: for a codeforces request with a supported language and a
known problem whose resolved sample list is empty, the result has ok
false, error "Samples unavailable" (compile_error absent), a summary
naming the platform, NO results key, and no build step, sample
execution or tmpdir creation happens (empty trace); for a LeetCode
request with an empty sample list the code instead returns an ok-true
informational result, likewise without any build or execution. -/
theorem claim_C5_amended (qkey language : List Char) (env : EvalEnv)
    (hl : canonLang (pyLower language) = "cpp".toList ∨
          canonLang (pyLower language) = "python".toList ∨
          canonLang (pyLower language) = "java".toList)
    (hp : env.problemFound = true)
    (hs : env.samples = []) :
    (env.platform = "codeforces".toList →
      (evaluate_solution qkey language env).1 =
        ⟨false, some ("Samples unavailable".toList), none,
          some (("No sample tests available for ".toList) ++ env.platform),
          none, none, none, none⟩ ∧
      (evaluate_solution qkey language env).2 = []) ∧
    (∀ slug, env.platform = "leetcode".toList → env.titleSlug = some slug →
      (evaluate_solution qkey language env).1 =
        ⟨true, none, none, some ("Code received for LeetCode problem".toList),
          none, none, none, none⟩ ∧
      (evaluate_solution qkey language env).2 = []) := by
  constructor
  · intro hplat
    rw [evaluate_solution_codeforces qkey language env hl hp hplat]
    simp only [evalCore]
    rw [if_pos hs]
    exact ⟨rfl, rfl⟩
  · intro slug hplat hslug
    simp only [evaluate_solution]
    rw [if_neg (not_not_intro hl), hp, if_neg (by simp), hplat,
      if_neg (by decide), if_pos rfl, hslug]
    rw [if_pos hs]
    exact ⟨rfl, rfl⟩

/-- Witness for the amended C5 at concrete inputs. -/
theorem claim_C5_witness :
    ((evaluate_solution ("q1".toList) ("python".toList) envC5b).1 =
      ⟨false, some ("Samples unavailable".toList), none,
        some ("No sample tests available for codeforces".toList),
        none, none, none, none⟩ ∧
     (evaluate_solution ("q1".toList) ("python".toList) envC5b).2 = []) ∧
    ((evaluate_solution ("q1".toList) ("python".toList) envC5a).1 =
      ⟨true, none, none, some ("Code received for LeetCode problem".toList),
        none, none, none, none⟩ ∧
     (evaluate_solution ("q1".toList) ("python".toList) envC5a).2 = []) := by
  have h1 := (claim_C5_amended ("q1".toList) ("python".toList) envC5b
    (Or.inr (Or.inl rfl)) rfl rfl).1 rfl
  have h2 := (claim_C5_amended ("q1".toList) ("python".toList) envC5a
    (Or.inr (Or.inl rfl)) rfl rfl).2 ("two-sum".toList) rfl rfl
  exact ⟨⟨h1.1.trans (by decide), h1.2⟩, h2⟩

/-- C9: on every exit path of evaluate_solution, a created temp
directory is removed: the trace contains equally many mkTmpdir and
rmTmpdir actions, and whenever a tmpdir was created the very last
modeled action is its removal (the Python try/finally guarantees the
rmtree runs after normal completion, terminal failures and the generic
exception handler alike; rmtree itself ignores removal errors). -/
theorem claim_C9_tmpdir_cleanup (qkey language : List Char) (env : EvalEnv) :
    ((evaluate_solution qkey language env).2.count EvalAction.mkTmpdir =
      (evaluate_solution qkey language env).2.count EvalAction.rmTmpdir) ∧
    (EvalAction.mkTmpdir ∈ (evaluate_solution qkey language env).2 →
      (evaluate_solution qkey language env).2.getLast? =
        some EvalAction.rmTmpdir) := by
  have hcore : ∀ lang : List Char,
      ((evalCore lang env).2.count EvalAction.mkTmpdir =
        (evalCore lang env).2.count EvalAction.rmTmpdir) ∧
      (EvalAction.mkTmpdir ∈ (evalCore lang env).2 →
        (evalCore lang env).2.getLast? = some EvalAction.rmTmpdir) := by
    intro lang
    simp only [evalCore]
    by_cases hs : env.samples = []
    · rw [if_pos hs]
      exact ⟨rfl, by intro h; simp at h⟩
    · rw [if_neg hs]
      have hmem : ∀ a ∈ (if lang = "cpp".toList then
            evaluate_cpp_solution env.compileRes env.runs env.samples
          else if lang = "python".toList then
            evaluate_python_solution env.runs env.samples
          else if lang = "java".toList then
            evaluate_java_solution env.compileRes env.runs env.samples
          else (.ok .notImplemented, [])).2,
          a = EvalAction.build ∨ ∃ i, a = EvalAction.runCase i := by
        by_cases h1 : lang = "cpp".toList
        · rw [if_pos h1]
          exact evaluate_cpp_trace_mem _ _ _
        · rw [if_neg h1]
          by_cases h2 : lang = "python".toList
          · rw [if_pos h2]
            exact evaluate_python_trace_mem _ _
          · rw [if_neg h2]
            by_cases h3 : lang = "java".toList
            · rw [if_pos h3]
              exact evaluate_java_trace_mem _ _ _
            · rw [if_neg h3]
              intro a ha
              simp at ha
      obtain ⟨hc, hg⟩ := dir_facts_of_inner _ hmem
      exact ⟨hc, fun _ => hg⟩
  simp only [evaluate_solution]
  by_cases h1 : ¬ (canonLang (pyLower language) = "cpp".toList ∨
      canonLang (pyLower language) = "python".toList ∨
      canonLang (pyLower language) = "java".toList)
  · rw [if_pos h1]
    exact ⟨rfl, by intro h; simp [errResult] at h⟩
  · rw [if_neg h1]
    by_cases h2 : env.problemFound = false
    · rw [if_pos h2]
      exact ⟨rfl, by intro h; simp [errResult] at h⟩
    · rw [if_neg h2]
      by_cases h3 : env.platform = "codeforces".toList
      · rw [if_pos h3]
        exact hcore _
      · rw [if_neg h3]
        by_cases h4 : env.platform = "leetcode".toList
        · rw [if_pos h4]
          cases hts : env.titleSlug with
          | none => exact ⟨rfl, by intro h; simp [errResult] at h⟩
          | some slug =>
            by_cases h5 : env.samples = []
            · rw [if_pos h5]
              exact ⟨rfl, by intro h; simp at h⟩
            · rw [if_neg h5]
              exact hcore _
        · rw [if_neg h4]
          exact ⟨rfl, by intro h; simp [errResult] at h⟩

def envC9 : EvalEnv :=
  ⟨true, "codeforces".toList, none, [("1".toList, "1".toList)], (0, [], []),
   fun _ => .completed 0 ("1".toList) []⟩

/-- Witness for C9: a run that creates a tmpdir removes it as the last
modeled action, with balanced counts. -/
theorem claim_C9_witness :
    EvalAction.mkTmpdir ∈
      (evaluate_solution ("q1".toList) ("python".toList) envC9).2 ∧
    (evaluate_solution ("q1".toList) ("python".toList) envC9).2.getLast? =
      some EvalAction.rmTmpdir ∧
    (evaluate_solution ("q1".toList) ("python".toList) envC9).2.count
        EvalAction.mkTmpdir =
      (evaluate_solution ("q1".toList) ("python".toList) envC9).2.count
        EvalAction.rmTmpdir := by
  refine ⟨by decide,
    (claim_C9_tmpdir_cleanup ("q1".toList) ("python".toList) envC9).2
      (by decide),
    (claim_C9_tmpdir_cleanup ("q1".toList) ("python".toList) envC9).1⟩
